import Mathlib

/-!
Verification of the algorithmic core of the social-media-analytics backend.

The development shallowly embeds the in-memory trending engine
(`app/services/trending.py`), the comment-tree analyzer
(`app/services/comments.py`) and the recommendation engine, and proves the
specification claims about them.  Wall-clock time is made explicit: every
operation receives the current minute (`int(time.time() // 60)` in the
source) as an argument.  Python integers are modelled by `Int`, Python
floats produced by exact divisions by `Rat`, and Python dictionaries by
association lists in insertion order, mirroring dict iteration order.
-/

set_option maxHeartbeats 1000000

/-- Insert an element into a list so that, if the list is sorted by the
boolean relation `le`, the result stays sorted.  Used to model Python's
`list.sort(key=...)`, whose result is uniquely determined whenever the sort
keys are pairwise distinct. -/
def insertLe (le : α → α → Bool) (a : α) : List α → List α
  | [] => [a]
  | b :: bs => if le a b then a :: b :: bs else b :: insertLe le a bs

/-- Insertion sort by the boolean relation `le`. -/
def sortLe (le : α → α → Bool) : List α → List α
  | [] => []
  | a :: as => insertLe le a (sortLe le as)

theorem insertLe_perm (le : α → α → Bool) (a : α) (l : List α) :
    (insertLe le a l).Perm (a :: l) := by
  induction l with
  | nil => simp [insertLe]
  | cons b bs ih =>
    by_cases h : le a b = true
    · simp [insertLe, h]
    · simp only [insertLe, if_neg h]
      exact (List.Perm.cons b ih).trans (List.Perm.swap a b bs)

theorem sortLe_perm (le : α → α → Bool) (l : List α) :
    (sortLe le l).Perm l := by
  induction l with
  | nil => simp [sortLe]
  | cons a as ih =>
    exact (insertLe_perm le a (sortLe le as)).trans (List.Perm.cons a ih)

theorem mem_insertLe {le : α → α → Bool} {a x : α} {l : List α} :
    x ∈ insertLe le a l ↔ x = a ∨ x ∈ l := by
  have h := (insertLe_perm le a l).mem_iff (a := x)
  simpa using h

theorem mem_sortLe {le : α → α → Bool} {x : α} {l : List α} :
    x ∈ sortLe le l ↔ x ∈ l := (sortLe_perm le l).mem_iff

theorem pairwise_insertLe {le : α → α → Bool}
    (htrans : ∀ a b c, le a b = true → le b c = true → le a c = true)
    (htot : ∀ a b, le a b = true ∨ le b a = true) {a : α} {l : List α}
    (hl : l.Pairwise (fun x y => le x y = true)) :
    (insertLe le a l).Pairwise (fun x y => le x y = true) := by
  induction l with
  | nil => simp [insertLe]
  | cons b bs ih =>
    rcases List.pairwise_cons.mp hl with ⟨hb, hbs⟩
    by_cases h : le a b = true
    · simp only [insertLe, h, if_pos]
      refine List.pairwise_cons.mpr ⟨?_, hl⟩
      intro x hx
      rcases List.mem_cons.mp hx with hx | hx
      · exact hx ▸ h
      · exact htrans a b x h (hb x hx)
    · simp only [insertLe, h, if_neg, Bool.not_eq_true]
      refine List.pairwise_cons.mpr ⟨?_, ih hbs⟩
      intro x hx
      rcases mem_insertLe.mp hx with hx | hx
      · rw [hx]
        rcases htot a b with hab | hba
        · exact absurd hab h
        · exact hba
      · exact hb x hx

theorem pairwise_sortLe {le : α → α → Bool}
    (htrans : ∀ a b c, le a b = true → le b c = true → le a c = true)
    (htot : ∀ a b, le a b = true ∨ le b a = true) (l : List α) :
    (sortLe le l).Pairwise (fun x y => le x y = true) := by
  induction l with
  | nil => simp [sortLe]
  | cons x xs ih =>
    simp only [sortLe]
    exact pairwise_insertLe htrans htot ih

/-! ## Time-bucketed counter store (`TrendingEngine` in `app/services/trending.py`)

Wall-clock time enters the Python code only through
`_get_minute_timestamp()`; here every operation takes the current minute
explicitly.  `counters` models the nested
`defaultdict`: an association list from hashtag name to its bucket list,
a bucket being a `(minute, count)` pair; association lists are kept in
dict insertion order.  A hashtag key is present in `counters` exactly when
it is present in the Python dict. -/

/-- Find the value stored under a key in an association list (first match,
as in a Python dict whose keys are unique). -/
def alistFind [DecidableEq κ] (k : κ) : List (κ × β) → Option β
  | [] => none
  | e :: es => if e.1 = k then some e.2 else alistFind k es

/-- State of a `TrendingEngine`: the configured window, the per-hashtag
minute buckets, and the minute of the last eviction pass. -/
structure TrendingState where
  window_minutes : Int
  counters : List (String × List (Int × Int))
  last_cleanup : Int
deriving DecidableEq

namespace TrendingEngine

/-- Translation of `TrendingEngine.__init__`: empty counters, and
`_last_cleanup` set to the construction-time minute `m0`. -/
def init (w m0 : Int) : TrendingState :=
  { window_minutes := w, counters := [], last_cleanup := m0 }

/-- Translation of `TrendingEngine._cleanup_old_buckets`, with
`current_minute` passed explicitly: if the minute advanced past
`_last_cleanup`, drop buckets with `minute < current_minute -
window_minutes` from every hashtag, drop hashtags left with no buckets,
and record the pass. -/
def cleanup_old_buckets (current_minute : Int) (s : TrendingState) : TrendingState :=
  if s.last_cleanup < current_minute then
    { s with
      counters :=
        (s.counters.map (fun e =>
          (e.1, e.2.filter (fun b => decide (current_minute - s.window_minutes ≤ b.1))))).filter
          (fun e => !e.2.isEmpty),
      last_cleanup := current_minute }
  else s

/-- Add `amt` to the bucket for minute `m`, creating the bucket (at the end,
as a fresh dict entry) if absent; models `buckets[current_minute] += count`
on a `defaultdict(int)`. -/
def bumpBucket (m amt : Int) : List (Int × Int) → List (Int × Int)
  | [] => [(m, amt)]
  | b :: bs => if b.1 = m then (b.1, b.2 + amt) :: bs else b :: bumpBucket m amt bs

/-- Add `amt` to bucket `m` of key `k`, creating the key (at the end) if
absent; models `self.counters[hashtag][current_minute] += count`. -/
def bumpKey (k : String) (m amt : Int) :
    List (String × List (Int × Int)) → List (String × List (Int × Int))
  | [] => [(k, [(m, amt)])]
  | e :: es => if e.1 = k then (e.1, bumpBucket m amt e.2) :: es else e :: bumpKey k m amt es

/-- Translation of `TrendingEngine.increment`: lazy eviction, then add
`count` to the current-minute bucket of `hashtag`. -/
def increment (current_minute : Int) (hashtag : String) (count : Int)
    (s : TrendingState) : TrendingState :=
  let s' := cleanup_old_buckets current_minute s
  { s' with counters := bumpKey hashtag current_minute count s'.counters }

/-- Sum of the counts of the buckets with `cutoff ≤ minute`; models the
summation loop of `get_count`. -/
def bucketSum (cutoff : Int) (bs : List (Int × Int)) : Int :=
  ((bs.filter (fun b => decide (cutoff ≤ b.1))).map (fun b => b.2)).sum

/-- Translation of the value computed by `TrendingEngine.get_count` (the
state effect of its lazy eviction is `cleanup_old_buckets`): 0 for an
absent hashtag or a window `≤ 0`, otherwise the sum of the buckets with
`minute ≥ current_minute - window`. -/
def get_count (current_minute : Int) (hashtag : String) (window : Int)
    (s : TrendingState) : Int :=
  let s' := cleanup_old_buckets current_minute s
  match alistFind hashtag s'.counters with
  | none => 0
  | some bs => if window ≤ 0 then 0 else bucketSum (current_minute - window) bs

/-- Sort key of `top`: Python sorts ascending by `(-count, hashtag)`, so
`a` precedes `b` when `a` has the larger count, or equal counts and
`a`'s name is lexicographically no larger (Python compares strings by
code points, as `≤` on `String.data` does). -/
def topLe (a b : String × Int) : Bool :=
  decide (b.2 < a.2) || (decide (a.2 = b.2) && decide (a.1.data ≤ b.1.data))

/-- Translation of `TrendingEngine.top`: lazy eviction; empty list for a
window `≤ 0`; otherwise the per-hashtag windowed totals, keeping only
positive totals, sorted by count descending then name ascending, truncated
to `k` entries. -/
def top (current_minute : Int) (k : Nat) (window : Int) (s : TrendingState) :
    List (String × Int) :=
  let s' := cleanup_old_buckets current_minute s
  if window ≤ 0 then []
  else
    let hashtag_counts :=
      (s'.counters.map (fun e => (e.1, bucketSum (current_minute - window) e.2))).filter
        (fun q => decide (0 < q.2))
    (sortLe topLe hashtag_counts).take k

/-- Status record returned by `TrendingEngine.get_status`. -/
structure Status where
  total_hashtags : Nat
  total_buckets : Nat
  current_minute : Int
  window_minutes : Int
deriving DecidableEq

/-- Translation of `TrendingEngine.get_status` (value; its state effect is
`cleanup_old_buckets`). -/
def get_status (current_minute : Int) (s : TrendingState) : Status :=
  let s' := cleanup_old_buckets current_minute s
  { total_hashtags := s'.counters.length,
    total_buckets := (s'.counters.map (fun e => e.2.length)).sum,
    current_minute := current_minute,
    window_minutes := s'.window_minutes }

end TrendingEngine

/-- Overwrite the bucket for minute `m` with value `v`, creating it (at the
end) if absent. -/
def setBucket (m v : Int) : List (Int × Int) → List (Int × Int)
  | [] => [(m, v)]
  | b :: bs => if b.1 = m then (m, v) :: bs else b :: setBucket m v bs

/-- Overwrite bucket `m` of key `k` with `v`, creating the key if absent;
models `trending_engine.counters[hashtag_name][minute_timestamp] = count`. -/
def setKeyBucket (k : String) (m v : Int) :
    List (String × List (Int × Int)) → List (String × List (Int × Int))
  | [] => [(k, [(m, v)])]
  | e :: es => if e.1 = k then (e.1, setBucket m v e.2) :: es else e :: setKeyBucket k m v es

/-- Translation of `populate_trending_from_db`.  The database rows joined
by the query are modelled as `(created_at_in_seconds, hashtag_name)` pairs;
the query keeps rows with `created_at >= now - minutes_back minutes`, the
loop groups them by `(minute, hashtag)` with `minute = created_at // 60`
(Python floor division equals `Int` division here since the divisor is
positive), and each group's multiplicity is written directly into the
corresponding bucket, bypassing eviction.  `now_seconds` stands for
`datetime.utcnow()` in epoch seconds. -/
def populate_trending_from_db (now_seconds minutes_back : Int)
    (rows : List (Int × String)) (s : TrendingState) : TrendingState :=
  let cutoff_time := now_seconds - minutes_back * 60
  let recent := rows.filter (fun r => decide (cutoff_time ≤ r.1))
  let keyed := recent.map (fun r => (r.1 / 60, r.2))
  { s with
    counters :=
      keyed.dedup.foldl
        (fun cs p => setKeyBucket p.2 p.1 (keyed.count p) cs) s.counters }

namespace TrendingEngine

/-- History of `increment` calls: each event carries the minute at which it
ran, the hashtag, and the amount. -/
def runIncs (tr : List (Int × String × Int)) (s : TrendingState) : TrendingState :=
  tr.foldl (fun st e => increment e.1 e.2.1 e.2.2 st) s

/-- Total of the amounts an event history applies to `key` in buckets at
minute `≥ cutoff`; this is the reference value the specification compares
`get_count` against. -/
def sumWithin (key : String) (cutoff : Int) (tr : List (Int × String × Int)) : Int :=
  ((tr.filter (fun e => decide (e.2.1 = key) && decide (cutoff ≤ e.1))).map
    (fun e => e.2.2)).sum

/-- Sum of the stored buckets of `key` at minute `≥ cutoff` (0 when the key
is absent). -/
def windowSum (key : String) (cutoff : Int) (s : TrendingState) : Int :=
  match alistFind key s.counters with
  | none => 0
  | some bs => bucketSum cutoff bs

/-- Well-formedness inherited from Python dicts: hashtag keys are unique. -/
def KeysOK (s : TrendingState) : Prop :=
  (s.counters.map (fun e => e.1)).Nodup

theorem alistFind_eq_none [DecidableEq κ] {k : κ} {cs : List (κ × β)}
    (h : k ∉ cs.map (fun e => e.1)) : alistFind k cs = none := by
  induction cs with
  | nil => rfl
  | cons e es ih =>
    simp only [List.map_cons, List.mem_cons, not_or] at h
    have hne : ¬ (e.1 = k) := fun he => h.1 he.symm
    simp only [alistFind, if_neg hne]
    exact ih h.2

theorem bucketSum_filter_of_imp {cutoff : Int} {keep : Int × Int → Bool}
    (bs : List (Int × Int)) (h : ∀ b : Int × Int, cutoff ≤ b.1 → keep b = true) :
    bucketSum cutoff (bs.filter keep) = bucketSum cutoff bs := by
  unfold bucketSum
  rw [List.filter_filter]
  have heq : List.filter (fun a => decide (cutoff ≤ a.1) && keep a) bs
      = List.filter (fun b => decide (cutoff ≤ b.1)) bs := by
    apply List.filter_congr
    intro b _
    by_cases hb : cutoff ≤ b.1
    · simp [hb, h b hb]
    · simp [hb]
  rw [heq]

/-- Value extracted from an association list of bucket lists, 0 when the
key is absent. -/
def wsumList (key : String) (cutoff : Int) (cs : List (String × List (Int × Int))) : Int :=
  match alistFind key cs with
  | none => 0
  | some bs => bucketSum cutoff bs

theorem wsumList_evict (key : String) {cutoff : Int} {keep : Int × Int → Bool}
    (himp : ∀ b : Int × Int, cutoff ≤ b.1 → keep b = true)
    (cs : List (String × List (Int × Int))) (hK : (cs.map (fun e => e.1)).Nodup) :
    wsumList key cutoff
      ((cs.map (fun e => (e.1, e.2.filter keep))).filter (fun e => !e.2.isEmpty)) =
    wsumList key cutoff cs := by
  induction cs with
  | nil => rfl
  | cons e es ih =>
    simp only [List.map_cons, List.nodup_cons] at hK
    have tailkeys : ((es.map (fun e => (e.1, e.2.filter keep))).filter
        (fun e => !e.2.isEmpty)).map (fun e => e.1) ⊆ es.map (fun e => e.1) := by
      intro x hx
      rcases List.mem_map.mp hx with ⟨q, hq, hqx⟩
      rcases List.mem_map.mp (List.mem_of_mem_filter hq) with ⟨d, hd, hdq⟩
      subst hqx
      rw [← hdq]
      exact List.mem_map.mpr ⟨d, hd, rfl⟩
    by_cases hk : e.1 = key
    · by_cases hne : (e.2.filter keep).isEmpty
      · rw [List.isEmpty_iff] at hne
        simp only [List.map_cons, List.filter_cons, hne, List.isEmpty_nil,
          Bool.not_true, if_neg, Bool.false_eq_true, not_false_iff]
        have hnone : alistFind key ((es.map (fun e => (e.1, e.2.filter keep))).filter
            (fun e => !e.2.isEmpty)) = none := by
          apply alistFind_eq_none
          intro hmem
          exact hK.1 (hk ▸ tailkeys hmem)
        have h2 : bucketSum cutoff e.2 = 0 := by
          rw [← bucketSum_filter_of_imp e.2 himp, hne]
          rfl
        simp [wsumList, hnone, alistFind, hk, h2]
      · simp only [List.map_cons, List.filter_cons, hne, Bool.not_false, if_pos]
        simp only [wsumList, alistFind, hk, if_pos]
        exact bucketSum_filter_of_imp e.2 himp
    · by_cases hne : (e.2.filter keep).isEmpty
      · simp only [List.map_cons, List.filter_cons, hne, Bool.not_true, if_neg,
          Bool.false_eq_true, not_false_iff]
        rw [ih hK.2]
        simp [wsumList, alistFind, hk]
      · simp only [List.map_cons, List.filter_cons, hne, Bool.not_false, if_pos]
        simp only [wsumList, alistFind, hk, if_neg, Bool.false_eq_true, not_false_iff]
        exact ih hK.2

theorem windowSum_cleanup {m cutoff : Int} {key : String} (s : TrendingState)
    (hK : KeysOK s) (hcut : m - s.window_minutes ≤ cutoff) :
    windowSum key cutoff (cleanup_old_buckets m s) = windowSum key cutoff s := by
  unfold cleanup_old_buckets
  by_cases hrun : s.last_cleanup < m
  · simp only [if_pos hrun]
    have himp : ∀ b : Int × Int, cutoff ≤ b.1 →
        (decide (m - s.window_minutes ≤ b.1)) = true := by
      intro b hb
      simp only [decide_eq_true_eq]
      omega
    have h := wsumList_evict key himp s.counters hK
    unfold windowSum wsumList at *
    exact h
  · simp only [if_neg hrun]

theorem bucketSum_cons (cutoff : Int) (b : Int × Int) (bs : List (Int × Int)) :
    bucketSum cutoff (b :: bs) =
      (if cutoff ≤ b.1 then b.2 else 0) + bucketSum cutoff bs := by
  unfold bucketSum
  by_cases h : cutoff ≤ b.1
  · simp [List.filter_cons, h]
  · simp [List.filter_cons, h]

theorem bucketSum_bumpBucket (cutoff m amt : Int) (bs : List (Int × Int)) :
    bucketSum cutoff (bumpBucket m amt bs) =
      bucketSum cutoff bs + (if cutoff ≤ m then amt else 0) := by
  induction bs with
  | nil =>
    by_cases h : cutoff ≤ m
    · simp [bumpBucket, bucketSum, h]
    · simp [bumpBucket, bucketSum, h]
  | cons b bs ih =>
    by_cases hb : b.1 = m
    · have e1 : bumpBucket m amt (b :: bs) = (b.1, b.2 + amt) :: bs := by
        simp [bumpBucket, hb]
      rw [e1, bucketSum_cons, bucketSum_cons]
      by_cases h : cutoff ≤ m
      · have h1 : cutoff ≤ b.1 := by omega
        rw [if_pos h, if_pos h1, if_pos h1]
        ring
      · have h1 : ¬ cutoff ≤ b.1 := by omega
        rw [if_neg h, if_neg h1, if_neg h1]
        ring
    · have e1 : bumpBucket m amt (b :: bs) = b :: bumpBucket m amt bs := by
        simp [bumpBucket, hb]
      rw [e1, bucketSum_cons, bucketSum_cons, ih]
      ring

theorem wsumList_bumpKey (key k : String) (cutoff m amt : Int)
    (cs : List (String × List (Int × Int))) :
    wsumList key cutoff (bumpKey k m amt cs) =
      wsumList key cutoff cs + (if key = k ∧ cutoff ≤ m then amt else 0) := by
  induction cs with
  | nil =>
    by_cases hk : key = k
    · subst hk
      by_cases h : cutoff ≤ m
      · simp [bumpKey, wsumList, alistFind, bucketSum, h]
      · simp [bumpKey, wsumList, alistFind, bucketSum, h]
    · have hk2 : ¬ (k = key) := fun he => hk he.symm
      simp [bumpKey, wsumList, alistFind, hk2, hk]
  | cons e es ih =>
    by_cases he : e.1 = k
    · have e1 : bumpKey k m amt (e :: es) = (e.1, bumpBucket m amt e.2) :: es := by
        simp [bumpKey, he]
      rw [e1]
      by_cases hek : e.1 = key
      · have hkey : key = k := by rw [← hek, he]
        simp only [wsumList, alistFind, if_pos hek]
        rw [bucketSum_bumpBucket]
        simp [hkey]
      · have hkk : ¬ (key = k) := fun hkk => hek (he.trans hkk.symm)
        simp only [wsumList, alistFind, if_neg hek]
        simp [hkk]
    · have e1 : bumpKey k m amt (e :: es) = e :: bumpKey k m amt es := by
        simp [bumpKey, he]
      rw [e1]
      by_cases hek : e.1 = key
      · have hkk : ¬ (key = k) := fun hkk => he (hek.trans hkk)
        simp only [wsumList, alistFind, if_pos hek]
        simp [hkk]
      · simp only [wsumList, alistFind, if_neg hek]
        exact ih

theorem windowSum_increment (mm : Int) (key hashtag : String) (amt cutoff : Int)
    (s : TrendingState) (hK : KeysOK s) (hcut : mm - s.window_minutes ≤ cutoff) :
    windowSum key cutoff (increment mm hashtag amt s) =
      windowSum key cutoff s + (if key = hashtag ∧ cutoff ≤ mm then amt else 0) := by
  unfold increment
  have h1 : windowSum key cutoff
      { cleanup_old_buckets mm s with
        counters := bumpKey hashtag mm amt (cleanup_old_buckets mm s).counters } =
      windowSum key cutoff (cleanup_old_buckets mm s) +
        (if key = hashtag ∧ cutoff ≤ mm then amt else 0) := by
    unfold windowSum
    exact wsumList_bumpKey key hashtag cutoff mm amt (cleanup_old_buckets mm s).counters
  rw [h1, windowSum_cleanup s hK hcut]

theorem keys_bumpKey (k : String) (m amt : Int)
    (cs : List (String × List (Int × Int))) {x : String}
    (hx : x ∈ (bumpKey k m amt cs).map (fun e => e.1)) :
    x ∈ cs.map (fun e => e.1) ∨ x = k := by
  induction cs with
  | nil => simpa [bumpKey] using hx
  | cons e es ih =>
    by_cases he : e.1 = k
    · simp only [bumpKey, if_pos he, List.map_cons, List.mem_cons] at hx ⊢
      tauto
    · simp only [bumpKey, if_neg he, List.map_cons, List.mem_cons] at hx ⊢
      tauto

theorem keysOK_bumpKey (k : String) (m amt : Int)
    (cs : List (String × List (Int × Int))) (h : (cs.map (fun e => e.1)).Nodup) :
    ((bumpKey k m amt cs).map (fun e => e.1)).Nodup := by
  induction cs with
  | nil => simp [bumpKey]
  | cons e es ih =>
    simp only [List.map_cons, List.nodup_cons] at h
    by_cases he : e.1 = k
    · simp only [bumpKey, if_pos he, List.map_cons, List.nodup_cons]
      exact ⟨h.1, h.2⟩
    · simp only [bumpKey, if_neg he, List.map_cons, List.nodup_cons]
      refine ⟨?_, ih h.2⟩
      intro hmem
      rcases keys_bumpKey k m amt es hmem with hm | hm
      · exact h.1 hm
      · exact he hm

theorem keysOK_cleanup (m : Int) (s : TrendingState) (h : KeysOK s) :
    KeysOK (cleanup_old_buckets m s) := by
  unfold cleanup_old_buckets KeysOK at *
  by_cases hrun : s.last_cleanup < m
  · simp only [if_pos hrun]
    refine List.Sublist.nodup ?_ h
    have h2 : ((s.counters.map (fun e =>
        (e.1, e.2.filter (fun b => decide (m - s.window_minutes ≤ b.1))))).filter
        (fun e => !e.2.isEmpty)).Sublist
        (s.counters.map (fun e =>
          (e.1, e.2.filter (fun b => decide (m - s.window_minutes ≤ b.1))))) :=
      List.filter_sublist _
    have h3 := h2.map (fun e => e.1)
    simpa [List.map_map, Function.comp] using h3
  · simpa [if_neg hrun] using h

theorem keysOK_increment (m : Int) (hashtag : String) (amt : Int)
    (s : TrendingState) (h : KeysOK s) : KeysOK (increment m hashtag amt s) := by
  unfold increment KeysOK
  exact keysOK_bumpKey hashtag m amt _ (keysOK_cleanup m s h)

theorem window_cleanup (m : Int) (s : TrendingState) :
    (cleanup_old_buckets m s).window_minutes = s.window_minutes := by
  unfold cleanup_old_buckets
  by_cases hrun : s.last_cleanup < m
  · simp [if_pos hrun]
  · simp [if_neg hrun]

theorem window_increment (m : Int) (hashtag : String) (amt : Int) (s : TrendingState) :
    (increment m hashtag amt s).window_minutes = s.window_minutes := by
  unfold increment
  exact window_cleanup m s

theorem windowSum_runIncs (key : String) (cutoff : Int) :
    ∀ (tr : List (Int × String × Int)) (s : TrendingState), KeysOK s →
    (∀ e ∈ tr, e.1 - s.window_minutes ≤ cutoff) →
    windowSum key cutoff (runIncs tr s) =
      windowSum key cutoff s + sumWithin key cutoff tr := by
  intro tr
  induction tr with
  | nil =>
    intro s _ _
    simp [runIncs, sumWithin]
  | cons e es ih =>
    intro s hK hev
    have hstep : runIncs (e :: es) s = runIncs es (increment e.1 e.2.1 e.2.2 s) := by
      simp [runIncs]
    rw [hstep]
    have hK' : KeysOK (increment e.1 e.2.1 e.2.2 s) := keysOK_increment _ _ _ _ hK
    have hev' : ∀ x ∈ es, x.1 - (increment e.1 e.2.1 e.2.2 s).window_minutes ≤ cutoff := by
      intro x hx
      rw [window_increment]
      exact hev x (List.mem_cons_of_mem e hx)
    rw [ih _ hK' hev']
    rw [windowSum_increment e.1 key e.2.1 e.2.2 cutoff s hK
      (hev e (List.mem_cons_self e es))]
    have hsum : sumWithin key cutoff (e :: es) =
        (if key = e.2.1 ∧ cutoff ≤ e.1 then e.2.2 else 0) + sumWithin key cutoff es := by
      unfold sumWithin
      simp only [List.filter_cons]
      by_cases h1 : e.2.1 = key
      · by_cases h2 : cutoff ≤ e.1
        · simp [h1, h2]
        · simp [h1, h2]
      · have h1' : ¬ (key = e.2.1) := fun h => h1 h.symm
        simp [h1, h1']
    rw [hsum]
    ring

theorem keysOK_runIncs : ∀ (tr : List (Int × String × Int)) (s : TrendingState),
    KeysOK s → KeysOK (runIncs tr s) := by
  intro tr
  induction tr with
  | nil => intro s h; simpa [runIncs] using h
  | cons e es ih =>
    intro s h
    have hstep : runIncs (e :: es) s = runIncs es (increment e.1 e.2.1 e.2.2 s) := by
      simp [runIncs]
    rw [hstep]
    exact ih _ (keysOK_increment _ _ _ _ h)

theorem window_runIncs : ∀ (tr : List (Int × String × Int)) (s : TrendingState),
    (runIncs tr s).window_minutes = s.window_minutes := by
  intro tr
  induction tr with
  | nil => intro s; simp [runIncs]
  | cons e es ih =>
    intro s
    have hstep : runIncs (e :: es) s = runIncs es (increment e.1 e.2.1 e.2.2 s) := by
      simp [runIncs]
    rw [hstep, ih, window_increment]

theorem get_count_eq_windowSum (m W : Int) (key : String) (s : TrendingState)
    (hW : 0 < W) :
    get_count m key W s = windowSum key (m - W) (cleanup_old_buckets m s) := by
  unfold get_count windowSum
  have hnot : ¬ (W ≤ 0) := not_le.mpr hW
  cases h : alistFind key (cleanup_old_buckets m s).counters with
  | none => simp [h]
  | some bs => simp [h, hnot]

theorem sumWithin_perm (key : String) (cutoff : Int)
    {tr tr' : List (Int × String × Int)} (h : tr'.Perm tr) :
    sumWithin key cutoff tr' = sumWithin key cutoff tr := by
  unfold sumWithin
  exact ((h.filter _).map _).sum_eq

theorem get_count_runIncs (w m0 mq W : Int) (key : String)
    (tr : List (Int × String × Int)) (hW : 0 < W) (hle : W ≤ w)
    (hev : ∀ e ∈ tr, e.1 ≤ mq) :
    get_count mq key W (runIncs tr (init w m0)) = sumWithin key (mq - W) tr := by
  have hKinit : KeysOK (init w m0) := by simp [KeysOK, init]
  have hc : ∀ e ∈ tr, e.1 - (init w m0).window_minutes ≤ mq - W := by
    intro e he
    have := hev e he
    simp only [init]
    omega
  have hrun := windowSum_runIncs key (mq - W) tr (init w m0) hKinit hc
  have hKfin : KeysOK (runIncs tr (init w m0)) := keysOK_runIncs tr _ hKinit
  have hwfin : (runIncs tr (init w m0)).window_minutes = w := window_runIncs tr _
  have hcut : mq - (runIncs tr (init w m0)).window_minutes ≤ mq - W := by
    rw [hwfin]; omega
  rw [get_count_eq_windowSum mq W key _ hW, windowSum_cleanup _ hKfin hcut, hrun]
  have hzero : windowSum key (mq - W) (init w m0) = 0 := rfl
  rw [hzero, zero_add]

/-- Claim C1, counterexample to the statement as given: with the default
window of 60 minutes, increment "a" by 5 at minute 0, increment "b" at
minute 100 (which evicts "a" entirely), then query `get_count("a", 120)`
at minute 100.  The window `W = 120 > 0` covers minute 0, so the sum of
amounts applied within the window is 5, yet `get_count` returns 0. -/
theorem claim_C1_counterexample :
    get_count 100 "a" 120 (runIncs [(0, "a", 5), (100, "b", 1)] (TrendingEngine.init 60 0)) = 0 ∧
    sumWithin "a" (100 - 120) [(0, "a", 5), (100, "b", 1)] = 5 ∧
    (0 : Int) < 120 := by
  refine ⟨?_, ?_, ?_⟩ <;> decide

/-- Claim C1 (amended: the window `W` must additionally not exceed the
engine's configured `window_minutes`, since lazy eviction drops buckets
older than the configured window even when a larger query window would
still cover them): for every history of `increment` calls whose minutes do
not exceed the query minute, `get_count(key, W)` with `0 < W ≤
window_minutes` returns exactly the sum of the amounts applied to `key` in
buckets within the last `W` minutes, and the result is unchanged under any
permutation of the increments (in particular, of increments within a
single minute). -/
theorem claim_C1_windowed_count (w m0 mq W : Int) (key : String)
    (tr : List (Int × String × Int)) (hW : 0 < W) (hle : W ≤ w)
    (hev : ∀ e ∈ tr, e.1 ≤ mq) :
    get_count mq key W (runIncs tr (TrendingEngine.init w m0)) = sumWithin key (mq - W) tr ∧
    ∀ tr', tr'.Perm tr →
      get_count mq key W (runIncs tr' (TrendingEngine.init w m0)) = sumWithin key (mq - W) tr := by
  constructor
  · exact get_count_runIncs w m0 mq W key tr hW hle hev
  · intro tr' hperm
    have hev' : ∀ e ∈ tr', e.1 ≤ mq := fun e he => hev e (hperm.mem_iff.mp he)
    rw [get_count_runIncs w m0 mq W key tr' hW hle hev']
    exact sumWithin_perm key (mq - W) hperm

/-- Claim C1 witness: the amended theorem applied to the concrete history
of two increments of "x" at minute 5, queried at minute 5 with window 3. -/
theorem claim_C1_windowed_count_witness :
    (0 : Int) < 3 ∧ (3 : Int) ≤ 60 ∧
    get_count 5 "x" 3 (runIncs [(5, "x", 2), (5, "x", 4)] (TrendingEngine.init 60 0)) =
      sumWithin "x" (5 - 3) [(5, "x", 2), (5, "x", 4)] :=
  ⟨by decide, by decide,
    (claim_C1_windowed_count 60 0 5 3 "x" [(5, "x", 2), (5, "x", 4)]
      (by decide) (by decide) (by decide)).1⟩

theorem alistFind_mem {β : Type _} {cs : List (String × β)}
    (hK : (cs.map (fun e => e.1)).Nodup) {e : String × β} (he : e ∈ cs) :
    alistFind e.1 cs = some e.2 := by
  induction cs with
  | nil => cases he
  | cons d ds ih =>
    simp only [List.map_cons, List.nodup_cons] at hK
    rcases List.mem_cons.mp he with he | he
    · subst he
      simp [alistFind]
    · have hne : ¬ (d.1 = e.1) := by
        intro hd
        apply hK.1
        rw [hd]
        exact List.mem_map.mpr ⟨e, he, rfl⟩
      simp only [alistFind, if_neg hne]
      exact ih hK.2 he

theorem topLe_iff (a b : String × Int) :
    topLe a b = true ↔ (b.2 < a.2 ∨ (a.2 = b.2 ∧ a.1.data ≤ b.1.data)) := by
  unfold topLe
  simp [Bool.or_eq_true, Bool.and_eq_true, decide_eq_true_eq]

theorem topLe_trans : ∀ a b c : String × Int,
    topLe a b = true → topLe b c = true → topLe a c = true := by
  intro a b c hab hbc
  rw [topLe_iff] at *
  rcases hab with h1 | h1 <;> rcases hbc with h2 | h2
  · exact Or.inl (by omega)
  · exact Or.inl (by omega)
  · exact Or.inl (by omega)
  · exact Or.inr ⟨h1.1.trans h2.1, h1.2.trans h2.2⟩

theorem topLe_total : ∀ a b : String × Int, topLe a b = true ∨ topLe b a = true := by
  intro a b
  rw [topLe_iff, topLe_iff]
  rcases lt_trichotomy a.2 b.2 with h | h | h
  · exact Or.inr (Or.inl h)
  · rcases le_total a.1.data b.1.data with hd | hd
    · exact Or.inl (Or.inr ⟨h, hd⟩)
    · exact Or.inr (Or.inr ⟨h.symm, hd⟩)
  · exact Or.inl (Or.inl h)

/-- Claim C2: for every well-formed counter state (unique hashtag keys,
as in a Python dict), every `k ≥ 0` (`k : Nat`) and every window `W`:
a window `W ≤ 0` makes `top` return `[]` and `get_count` return 0 for
every key; every pair returned by `top` carries exactly the windowed count
`get_count` reports for that hashtag and that count is strictly positive;
the output is sorted by count descending and, on equal counts, by hashtag
name ascending (code-point order on the characters); and at most `k`
entries are returned. -/
theorem claim_C2_top_contract (s : TrendingState) (m : Int) (k : Nat) (W : Int)
    (hK : KeysOK s) :
    (W ≤ 0 → top m k W s = [] ∧ ∀ key, get_count m key W s = 0) ∧
    (∀ p ∈ top m k W s, p.2 = get_count m p.1 W s ∧ 0 < p.2) ∧
    (top m k W s).Pairwise
      (fun a b => b.2 < a.2 ∨ (a.2 = b.2 ∧ a.1.data < b.1.data)) ∧
    (top m k W s).length ≤ k := by
  have hKc : KeysOK (cleanup_old_buckets m s) := keysOK_cleanup m s hK
  have hnames : (((cleanup_old_buckets m s).counters.map
      (fun e => (e.1, bucketSum (m - W) e.2))).filter
      (fun q => decide (0 < q.2))).map (fun e => e.1) |>.Nodup := by
    have hsub : ((((cleanup_old_buckets m s).counters.map
        (fun e => (e.1, bucketSum (m - W) e.2))).filter
        (fun q => decide (0 < q.2))).map (fun e => e.1)).Sublist
        ((((cleanup_old_buckets m s).counters.map
          (fun e => (e.1, bucketSum (m - W) e.2)))).map (fun e => e.1)) :=
      (List.filter_sublist _).map _
    refine hsub.nodup ?_
    have : ((((cleanup_old_buckets m s).counters.map
        (fun e => (e.1, bucketSum (m - W) e.2)))).map (fun e => e.1)) =
        (cleanup_old_buckets m s).counters.map (fun e => e.1) := by
      rw [List.map_map]
      rfl
    rw [this]
    exact hKc
  refine ⟨?_, ?_, ?_, ?_⟩
  · intro hW
    constructor
    · unfold top
      simp [hW]
    · intro key
      unfold get_count
      cases h : alistFind key (cleanup_old_buckets m s).counters with
      | none => simp [h]
      | some bs => simp [h, hW]
  · intro p hp
    by_cases hW : W ≤ 0
    · unfold top at hp
      simp [hW] at hp
    · unfold top at hp
      simp only [if_neg hW] at hp
      have hp1 : p ∈ sortLe topLe (((cleanup_old_buckets m s).counters.map
          (fun e => (e.1, bucketSum (m - W) e.2))).filter
          (fun q => decide (0 < q.2))) := List.take_subset _ _ hp
      have hp2 := mem_sortLe.mp hp1
      rcases List.mem_filter.mp hp2 with ⟨hp3, hp4⟩
      rcases List.mem_map.mp hp3 with ⟨e, he, hpe⟩
      subst hpe
      have hfind := alistFind_mem hKc he
      constructor
      · unfold get_count
        simp [hfind, hW]
      · simpa [decide_eq_true_eq] using hp4
  · by_cases hW : W ≤ 0
    · unfold top
      simp [hW]
    · unfold top
      simp only [if_neg hW]
      set pairs := ((cleanup_old_buckets m s).counters.map
        (fun e => (e.1, bucketSum (m - W) e.2))).filter
        (fun q => decide (0 < q.2)) with hpairs
      have hsorted := pairwise_sortLe topLe_trans topLe_total pairs
      have hnodupSort : ((sortLe topLe pairs).map (fun e => e.1)).Nodup := by
        have hperm := (sortLe_perm topLe pairs).map (fun e => e.1)
        exact hperm.symm.nodup hnames
      have hne : (sortLe topLe pairs).Pairwise (fun a b => a.1 ≠ b.1) :=
        List.pairwise_map.mp hnodupSort
      have hcomb := hsorted.and hne
      have hfull : (sortLe topLe pairs).Pairwise
          (fun a b => b.2 < a.2 ∨ (a.2 = b.2 ∧ a.1.data < b.1.data)) := by
        refine hcomb.imp ?_
        intro a b hab
        rcases (topLe_iff a b).mp hab.1 with h | h
        · exact Or.inl h
        · refine Or.inr ⟨h.1, lt_of_le_of_ne h.2 ?_⟩
          intro hd
          exact hab.2 (String.ext hd)
      exact hfull.sublist (List.take_sublist k _)
  · by_cases hW : W ≤ 0
    · unfold top
      simp [hW]
    · unfold top
      simp only [if_neg hW]
      exact List.length_take_le _ _

/-- Claim C2 witness: the contract applied to a concrete two-hashtag state
with tied counts, checking the tie is broken by name ascending. -/
theorem claim_C2_top_contract_witness :
    KeysOK ⟨60, [("b", [(5, 2)]), ("a", [(5, 2)])], 5⟩ ∧
    (top 5 10 60 ⟨60, [("b", [(5, 2)]), ("a", [(5, 2)])], 5⟩).Pairwise
      (fun a b => b.2 < a.2 ∨ (a.2 = b.2 ∧ a.1.data < b.1.data)) ∧
    ((-1 : Int) ≤ 0 → top 5 10 (-1) ⟨60, [("b", [(5, 2)]), ("a", [(5, 2)])], 5⟩ = [] ∧
      ∀ key, get_count 5 key (-1) ⟨60, [("b", [(5, 2)]), ("a", [(5, 2)])], 5⟩ = 0) :=
  ⟨by unfold KeysOK; decide,
    (claim_C2_top_contract ⟨60, [("b", [(5, 2)]), ("a", [(5, 2)])], 5⟩ 5 10 60
      (by unfold KeysOK; decide)).2.2.1,
    (claim_C2_top_contract ⟨60, [("b", [(5, 2)]), ("a", [(5, 2)])], 5⟩ 5 10 (-1)
      (by unfold KeysOK; decide)).1⟩

/-- Retention invariant at current minute `m`: every stored hashtag still
has at least one bucket, and no bucket is older than `m - window_minutes`. -/
def NoStale (m : Int) (s : TrendingState) : Prop :=
  ∀ e ∈ s.counters, e.2 ≠ [] ∧ ∀ b ∈ e.2, m - s.window_minutes ≤ b.1

theorem noStale_cleanup (m : Int) (s : TrendingState)
    (hlc : s.last_cleanup ≤ m) (hpre : NoStale s.last_cleanup s) :
    NoStale m (cleanup_old_buckets m s) := by
  unfold cleanup_old_buckets
  by_cases hrun : s.last_cleanup < m
  · simp only [if_pos hrun]
    intro e he
    rcases List.mem_filter.mp he with ⟨he1, he2⟩
    rcases List.mem_map.mp he1 with ⟨d, hd, hde⟩
    constructor
    · intro hnil
      rw [hnil] at he2
      simp at he2
    · intro b hb
      rw [← hde] at hb
      rcases List.mem_filter.mp hb with ⟨_, hb2⟩
      simpa [decide_eq_true_eq] using hb2
  · have heq : s.last_cleanup = m := by omega
    simp only [if_neg hrun]
    exact heq ▸ hpre

theorem bumpBucket_ne_nil (m amt : Int) (bs : List (Int × Int)) :
    bumpBucket m amt bs ≠ [] := by
  cases bs with
  | nil => simp [bumpBucket]
  | cons b bs =>
    unfold bumpBucket
    by_cases h : b.1 = m
    · simp [h]
    · simp [h]

theorem mem_bumpBucket {m amt : Int} {bs : List (Int × Int)} {b : Int × Int}
    (hb : b ∈ bumpBucket m amt bs) : b.1 = m ∨ ∃ b' ∈ bs, b.1 = b'.1 := by
  induction bs with
  | nil =>
    simp [bumpBucket] at hb
    simp [hb]
  | cons d ds ih =>
    unfold bumpBucket at hb
    by_cases h : d.1 = m
    · rw [if_pos h] at hb
      rcases List.mem_cons.mp hb with hb | hb
      · left
        rw [hb, h]
      · right
        exact ⟨b, List.mem_cons_of_mem d hb, rfl⟩
    · rw [if_neg h] at hb
      rcases List.mem_cons.mp hb with hb | hb
      · right
        exact ⟨d, List.mem_cons_self d ds, by rw [hb]⟩
      · rcases ih hb with hh | ⟨b', hb', he⟩
        · exact Or.inl hh
        · exact Or.inr ⟨b', List.mem_cons_of_mem d hb', he⟩

theorem bumpKey_entries {cut m amt : Int} {k : String} (hcutm : cut ≤ m)
    (cs : List (String × List (Int × Int)))
    (h : ∀ e ∈ cs, e.2 ≠ [] ∧ ∀ b ∈ e.2, cut ≤ b.1) :
    ∀ e ∈ bumpKey k m amt cs, e.2 ≠ [] ∧ ∀ b ∈ e.2, cut ≤ b.1 := by
  induction cs with
  | nil =>
    intro e he
    simp [bumpKey] at he
    subst he
    refine ⟨by simp, ?_⟩
    intro b hb
    simp at hb
    rw [hb]
    exact hcutm
  | cons d ds ih =>
    intro e he
    unfold bumpKey at he
    by_cases hd : d.1 = k
    · rw [if_pos hd] at he
      rcases List.mem_cons.mp he with he | he
      · subst he
        refine ⟨bumpBucket_ne_nil m amt d.2, ?_⟩
        intro b hb
        rcases mem_bumpBucket hb with hb1 | ⟨b', hb', he⟩
        · rw [hb1]; exact hcutm
        · rw [he]
          exact (h d (List.mem_cons_self d ds)).2 b' hb'
      · exact h e (List.mem_cons_of_mem d he)
    · rw [if_neg hd] at he
      rcases List.mem_cons.mp he with he | he
      · subst he
        exact h e (List.mem_cons_self e ds)
      · exact ih (fun x hx => h x (List.mem_cons_of_mem d hx)) e he

theorem noStale_increment (m : Int) (key : String) (amt : Int) (s : TrendingState)
    (hw : 0 ≤ s.window_minutes) (hlc : s.last_cleanup ≤ m)
    (hpre : NoStale s.last_cleanup s) :
    NoStale m (increment m key amt s) := by
  have hc := noStale_cleanup m s hlc hpre
  unfold increment NoStale at *
  have hwin : (cleanup_old_buckets m s).window_minutes = s.window_minutes :=
    window_cleanup m s
  intro e he
  have hcutm : m - s.window_minutes ≤ m := by omega
  have h := bumpKey_entries hcutm (cleanup_old_buckets m s).counters
    (fun x hx => by
      have := hc x hx
      rwa [hwin] at this) e he
  rwa [hwin]

theorem setBucket_ne_nil (m v : Int) (bs : List (Int × Int)) :
    setBucket m v bs ≠ [] := by
  cases bs with
  | nil => simp [setBucket]
  | cons b bs =>
    unfold setBucket
    by_cases h : b.1 = m
    · simp [h]
    · simp [h]

theorem mem_setBucket {m v : Int} {bs : List (Int × Int)} {b : Int × Int}
    (hb : b ∈ setBucket m v bs) : b.1 = m ∨ ∃ b' ∈ bs, b.1 = b'.1 := by
  induction bs with
  | nil =>
    simp [setBucket] at hb
    simp [hb]
  | cons d ds ih =>
    unfold setBucket at hb
    by_cases h : d.1 = m
    · rw [if_pos h] at hb
      rcases List.mem_cons.mp hb with hb | hb
      · left
        rw [hb]
      · right
        exact ⟨b, List.mem_cons_of_mem d hb, rfl⟩
    · rw [if_neg h] at hb
      rcases List.mem_cons.mp hb with hb | hb
      · right
        exact ⟨d, List.mem_cons_self d ds, by rw [hb]⟩
      · rcases ih hb with hh | ⟨b', hb', he⟩
        · exact Or.inl hh
        · exact Or.inr ⟨b', List.mem_cons_of_mem d hb', he⟩

theorem setKeyBucket_entries {cut mb v : Int} {k : String} (hcutm : cut ≤ mb)
    (cs : List (String × List (Int × Int)))
    (h : ∀ e ∈ cs, e.2 ≠ [] ∧ ∀ b ∈ e.2, cut ≤ b.1) :
    ∀ e ∈ setKeyBucket k mb v cs, e.2 ≠ [] ∧ ∀ b ∈ e.2, cut ≤ b.1 := by
  induction cs with
  | nil =>
    intro e he
    simp [setKeyBucket] at he
    subst he
    refine ⟨by simp, ?_⟩
    intro b hb
    simp at hb
    rw [hb]
    exact hcutm
  | cons d ds ih =>
    intro e he
    unfold setKeyBucket at he
    by_cases hd : d.1 = k
    · rw [if_pos hd] at he
      rcases List.mem_cons.mp he with he | he
      · subst he
        refine ⟨setBucket_ne_nil mb v d.2, ?_⟩
        intro b hb
        rcases mem_setBucket hb with hb1 | ⟨b', hb', he⟩
        · rw [hb1]; exact hcutm
        · rw [he]
          exact (h d (List.mem_cons_self d ds)).2 b' hb'
      · exact h e (List.mem_cons_of_mem d he)
    · rw [if_neg hd] at he
      rcases List.mem_cons.mp he with he | he
      · subst he
        exact h e (List.mem_cons_self e ds)
      · exact ih (fun x hx => h x (List.mem_cons_of_mem d hx)) e he

theorem setKeyBucket_fold_entries {cut : Int} (v : Int × String → Int) :
    ∀ (ps : List (Int × String)) (cs : List (String × List (Int × Int))),
    (∀ p ∈ ps, cut ≤ p.1) →
    (∀ e ∈ cs, e.2 ≠ [] ∧ ∀ b ∈ e.2, cut ≤ b.1) →
    ∀ e ∈ ps.foldl (fun cs p => setKeyBucket p.2 p.1 (v p) cs) cs,
      e.2 ≠ [] ∧ ∀ b ∈ e.2, cut ≤ b.1 := by
  intro ps
  induction ps with
  | nil =>
    intro cs _ h e he
    exact h e he
  | cons p ps ih =>
    intro cs hps h e he
    simp only [List.foldl_cons] at he
    exact ih _ (fun q hq => hps q (List.mem_cons_of_mem p hq))
      (setKeyBucket_entries (hps p (List.mem_cons_self p ps)) cs h) e he

theorem noStale_populate (now mb : Int) (rows : List (Int × String))
    (s : TrendingState) (hmb : mb ≤ s.window_minutes)
    (hpre : NoStale (now / 60) s) :
    NoStale (now / 60) (populate_trending_from_db now mb rows s) := by
  unfold populate_trending_from_db NoStale at *
  intro e he
  simp only at he
  have hdiv : (now - mb * 60) / 60 = now / 60 - mb := by
    have h2 : now - mb * 60 = now + (-mb) * 60 := by ring
    rw [h2, Int.add_mul_ediv_right now (-mb) (by norm_num : (60:Int) ≠ 0)]
    ring
  have hall : ∀ p ∈ ((rows.filter (fun r => decide (now - mb * 60 ≤ r.1))).map
      (fun r => (r.1 / 60, r.2))).dedup, now / 60 - s.window_minutes ≤ p.1 := by
    intro p hp
    rcases List.mem_map.mp (List.mem_dedup.mp hp) with ⟨r, hr, hrp⟩
    rcases List.mem_filter.mp hr with ⟨_, hr2⟩
    have hr3 : now - mb * 60 ≤ r.1 := by simpa [decide_eq_true_eq] using hr2
    have hmono : (now - mb * 60) / 60 ≤ r.1 / 60 :=
      Int.ediv_le_ediv (by norm_num) hr3
    rw [hdiv] at hmono
    rw [← hrp]
    simp only
    omega
  exact setKeyBucket_fold_entries _ _ _ hall hpre e he

theorem alistFind_ne_none_of_mem {β : Type _} {cs : List (String × β)}
    {e : String × β} (he : e ∈ cs) : alistFind e.1 cs ≠ none := by
  induction cs with
  | nil => cases he
  | cons d ds ih =>
    unfold alistFind
    by_cases hd : d.1 = e.1
    · simp [hd]
    · rcases List.mem_cons.mp he with he | he
      · exact absurd (congrArg (fun x => x.1) he.symm) hd
      · simpa [hd] using ih he

/-- Claim C3, counterexample to the statement as given: the database sync
is listed among the operations after which no stale bucket survives, but
`populate_trending_from_db` writes buckets directly and never runs
eviction, so syncing with `minutes_back = 120` into an engine whose window
is 60 minutes (current minute 120, i.e. `now_seconds = 7200`) leaves the
bucket of minute 0, older than `current_minute - window_minutes = 60`. -/
theorem claim_C3_counterexample :
    (populate_trending_from_db 7200 120 [(0, "a")]
      (TrendingEngine.init 60 120)).counters = [("a", [(0, 1)])] ∧
    ¬ NoStale (7200 / 60) (populate_trending_from_db 7200 120 [(0, "a")]
      (TrendingEngine.init 60 120)) := by
  constructor
  · decide
  · unfold NoStale
    decide

/-- Claim C3 (amended: the database sync preserves the retention invariant
only when its `minutes_back` does not exceed the engine window; with
`minutes_back > window_minutes` it can deposit stale buckets, since it
bypasses eviction): assuming the invariant held at the last eviction pass
and time has not gone backwards, then after `increment`, and after the
eviction pass shared by `get_count`/`top`/`get_status`, no key holds a
bucket older than `current_minute - window_minutes` and every key whose
buckets were all evicted is entirely absent; eviction only runs when the
minute advanced past the last pass; the database sync with `minutes_back ≤
window_minutes` preserves the invariant; `get_status` counts exactly the
keys surviving eviction, and an absent key never appears in `top`. -/
theorem claim_C3_retention_invariant (s : TrendingState) (m : Int)
    (hw : 0 ≤ s.window_minutes) (hlc : s.last_cleanup ≤ m)
    (hpre : NoStale s.last_cleanup s) :
    NoStale m (increment m hashtag amt s) ∧
    NoStale m (cleanup_old_buckets m s) ∧
    (∀ (m' : Int) (s' : TrendingState), ¬ s'.last_cleanup < m' →
      cleanup_old_buckets m' s' = s') ∧
    (∀ (now mb : Int) (rows : List (Int × String)) (s2 : TrendingState),
      mb ≤ s2.window_minutes → NoStale (now / 60) s2 →
      NoStale (now / 60) (populate_trending_from_db now mb rows s2)) ∧
    (get_status m s).total_hashtags = (cleanup_old_buckets m s).counters.length ∧
    (∀ key : String, alistFind key (cleanup_old_buckets m s).counters = none →
      ∀ (k : Nat) (W : Int), key ∉ (top m k W s).map (fun p => p.1)) := by
  refine ⟨noStale_increment m hashtag amt s hw hlc hpre,
    noStale_cleanup m s hlc hpre, ?_, ?_, rfl, ?_⟩
  · intro m' s' hrun
    unfold cleanup_old_buckets
    simp [if_neg hrun]
  · intro now mb rows s2 hmb hpre2
    exact noStale_populate now mb rows s2 hmb hpre2
  · intro key hnone k W hmem
    rcases List.mem_map.mp hmem with ⟨p, hp, hpk⟩
    by_cases hW : W ≤ 0
    · unfold top at hp
      simp [hW] at hp
    · unfold top at hp
      simp only [if_neg hW] at hp
      have hp1 := mem_sortLe.mp (List.take_subset _ _ hp)
      rcases List.mem_filter.mp hp1 with ⟨hp3, _⟩
      rcases List.mem_map.mp hp3 with ⟨e, he, hpe⟩
      apply alistFind_ne_none_of_mem he
      have he1 : e.1 = key := by
        rw [← hpk, ← hpe]
      rwa [he1]

/-- Claim C3 witness: the invariant theorem applied to a concrete state
holding one bucket at minute 5, advancing to minute 6. -/
theorem claim_C3_retention_invariant_witness :
    (0 : Int) ≤ (⟨60, [("a", [(5, 1)])], 5⟩ : TrendingState).window_minutes ∧
    (⟨60, [("a", [(5, 1)])], 5⟩ : TrendingState).last_cleanup ≤ 6 ∧
    NoStale (⟨60, [("a", [(5, 1)])], 5⟩ : TrendingState).last_cleanup
      ⟨60, [("a", [(5, 1)])], 5⟩ ∧
    NoStale 6 (increment 6 "b" 3 ⟨60, [("a", [(5, 1)])], 5⟩) :=
  ⟨by decide, by decide, by unfold NoStale; decide,
    (claim_C3_retention_invariant ⟨60, [("a", [(5, 1)])], 5⟩ 6 (by decide)
      (by decide) (by unfold NoStale; decide)).1⟩

end TrendingEngine

/-! ## Comment tree analyzer (`CommentAnalyzer` in `app/services/comments.py`)

A comment row carries its id, nullable parent id, upvote count and owning
post id (the fields the analyzer reads).  The Python recursions
(`_calculate_depth`, `_find_viral_chains`, `build_tree_node`) have no
explicit bound; they are embedded with a fuel parameter, and the
fuel-independence theorems below show that `comments.length` fuel always
suffices when starting from a null-parent root, which is exactly the
termination of the source recursion. -/

/-- A comment row: id, nullable parent id, upvotes, owning post. -/
structure CommentRec where
  id : Int
  parent_id : Option Int
  upvotes : Int
  post_id : Int
deriving DecidableEq

/-- Overwrite the value stored under a key in an association list,
appending a fresh entry if the key is absent (Python dict assignment). -/
def alistSet [DecidableEq κ] (k : κ) (v : β) : List (κ × β) → List (κ × β)
  | [] => [(k, v)]
  | e :: es => if e.1 = k then (k, v) :: es else e :: alistSet k v es

namespace CommentAnalyzer

/-- The children index `self._children_cache`: the comments of the list
whose `parent_id` equals the given comment's id. -/
def children_of (comments : List CommentRec) (c : CommentRec) : List CommentRec :=
  comments.filter (fun d => decide (d.parent_id = some c.id))

/-- Maximum of a list of naturals (0 on empty); models Python `max` over
the nonempty generators used by the analyzer, and the running-maximum
loops starting from 0. -/
def listMax (l : List Nat) : Nat := l.foldl Nat.max 0

/-- Translation of `CommentAnalyzer._calculate_depth` with
`cache_enabled=False`: depth 1 for a childless comment, else 1 + the
maximum depth of the children.  `fuel` bounds the recursion depth; the
source recursion is unbounded, and the stability theorems show the value
is fuel-independent from `comments.length` on for every comment reachable
from a root. -/
def calculate_depth (comments : List CommentRec) : Nat → CommentRec → Nat
  | 0, _ => 0
  | fuel + 1, c =>
    let children := children_of comments c
    if children.isEmpty then 1
    else 1 + listMax (children.map (calculate_depth comments fuel))

/-- Translation of `CommentAnalyzer._calculate_depth` with
`cache_enabled=True`: identical recursion, but the depth of each comment
id is looked up in, and written back to, the shared `_depth_cache`
(threaded explicitly). -/
def calculate_depth_memo (comments : List CommentRec) :
    Nat → CommentRec → List (Int × Nat) → Nat × List (Int × Nat)
  | 0, _, cache => (0, cache)
  | fuel + 1, c, cache =>
    match alistFind c.id cache with
    | some v => (v, cache)
    | none =>
      let children := children_of comments c
      if children.isEmpty then (1, alistSet c.id 1 cache)
      else
        let r := children.foldl
          (fun acc d =>
            let q := calculate_depth_memo comments fuel d acc.2
            (Nat.max acc.1 q.1, q.2))
          (0, cache)
        (1 + r.1, alistSet c.id (1 + r.1) r.2)

/-- Result record of `analyze_depth`; the Python float average is modelled
by the exact rational the division produces. -/
structure CommentDepthAnalysis where
  post_id : Int
  max_depth : Nat
  total_comments : Nat
  total_replies : Nat
  average_replies_per_comment : Rat
deriving DecidableEq

/-- Translation of the pure part of `CommentAnalyzer.analyze_depth`,
operating on the comment list fetched for the post: empty list gives all
zeros; otherwise roots are the `parent_id is None` comments, `max_depth`
the running maximum of the per-root depths (threading the shared depth
cache when `cache_enabled`), `total_replies` the comment count minus the
root count, and the average the sum of direct-child counts divided by the
comment count. -/
def analyze_depth_list (cache_enabled : Bool) (post_id : Int)
    (comments : List CommentRec) : CommentDepthAnalysis :=
  if comments.isEmpty then
    { post_id := post_id, max_depth := 0, total_comments := 0,
      total_replies := 0, average_replies_per_comment := 0 }
  else
    let root_comments := comments.filter (fun c => decide (c.parent_id = none))
    let max_depth :=
      if cache_enabled then
        (root_comments.foldl
          (fun acc r =>
            let q := calculate_depth_memo comments comments.length r acc.2
            (Nat.max acc.1 q.1, q.2)) (0, ([] : List (Int × Nat)))).1
      else
        root_comments.foldl
          (fun acc r => Nat.max acc (calculate_depth comments comments.length r)) 0
    { post_id := post_id,
      max_depth := max_depth,
      total_comments := comments.length,
      total_replies := comments.length - root_comments.length,
      average_replies_per_comment :=
        (((comments.map (fun c => (children_of comments c).length)).sum : Int) : Rat) /
          ((comments.length : Int) : Rat) }

/-- Translation of `CommentAnalyzer._is_viral_comment`: direct-child count
at least `viral_min_replies`, or upvotes at least `viral_min_upvotes`. -/
def is_viral_comment (vmr vmu : Int) (comments : List CommentRec) (c : CommentRec) : Bool :=
  decide (vmr ≤ ((children_of comments c).length : Int)) || decide (vmu ≤ c.upvotes)

/-- Translation of `CommentAnalyzer._find_viral_chains`: extend the chain
with the current comment; if no viral children remain, record the chain
when it has at least 2 comments; otherwise recurse into every viral child
and additionally record the current chain when it has at least 2
comments. -/
def find_viral_chains (vmr vmu : Int) (comments : List CommentRec) :
    Nat → CommentRec → List CommentRec → List (List CommentRec)
  | 0, _, _ => []
  | fuel + 1, c, current_chain =>
    let new_chain := current_chain ++ [c]
    let children := children_of comments c
    let viral_children := children.filter (is_viral_comment vmr vmu comments)
    if viral_children.isEmpty then
      if 2 ≤ new_chain.length then [new_chain] else []
    else
      (viral_children.map
        (fun d => find_viral_chains vmr vmu comments fuel d new_chain)).flatten ++
        (if 2 ≤ new_chain.length then [new_chain] else [])

/-- Result record of `detect_viral_chains`. -/
structure ViralChainAnalysis where
  post_id : Int
  longest_chain_length : Nat
  longest_chain_comments : List Int
  total_viral_chains : Nat
  viral_criteria_met : Bool
deriving DecidableEq

/-- Translation of the pure part of `CommentAnalyzer.detect_viral_chains`:
chains are gathered from every viral null-parent root, the longest chain
is the first strictly-longest one in traversal order, and
`viral_criteria_met` records whether any chain was found. -/
def detect_viral_chains_list (vmr vmu : Int) (post_id : Int)
    (comments : List CommentRec) : ViralChainAnalysis :=
  if comments.isEmpty then
    { post_id := post_id, longest_chain_length := 0, longest_chain_comments := [],
      total_viral_chains := 0, viral_criteria_met := false }
  else
    let root_comments := comments.filter (fun c => decide (c.parent_id = none))
    let all_chains :=
      ((root_comments.filter (is_viral_comment vmr vmu comments)).map
        (fun r => find_viral_chains vmr vmu comments comments.length r [])).flatten
    let longest_chain := all_chains.foldl
      (fun best ch => if best.length < ch.length then ch else best) []
    { post_id := post_id,
      longest_chain_length := longest_chain.length,
      longest_chain_comments := longest_chain.map (fun c => c.id),
      total_viral_chains := all_chains.length,
      viral_criteria_met := decide (0 < longest_chain.length) }

end CommentAnalyzer

/-- Node of the nested comment-tree serialization built by
`get_comment_tree_structure` (the fields the model carries: id, upvotes,
children). -/
inductive CommentTree where
  | node (id : Int) (upvotes : Int) (children : List CommentTree)

namespace CommentAnalyzer

/-- Translation of the recursive `build_tree_node` helper of
`get_comment_tree_structure`, with fuel as for the other recursions. -/
def build_tree_node (comments : List CommentRec) : Nat → CommentRec → CommentTree
  | 0, c => .node c.id c.upvotes []
  | fuel + 1, c =>
    .node c.id c.upvotes ((children_of comments c).map (build_tree_node comments fuel))

end CommentAnalyzer

/-- The collaborator store the analyzer queries: the existing post ids and
the comment rows. -/
structure AppDb where
  posts : List Int
  comments : List CommentRec

namespace CommentAnalyzer

/-- Translation of `CommentAnalyzer.analyze_depth`: the post-existence
check runs before the comments are fetched, raising (modelled as
`Except.error`) when the post id is unknown. -/
def analyze_depth (cache_enabled : Bool) (db : AppDb) (post_id : Int) :
    Except String CommentDepthAnalysis :=
  if post_id ∈ db.posts then
    .ok (analyze_depth_list cache_enabled post_id
      (db.comments.filter (fun c => decide (c.post_id = post_id))))
  else .error "Post not found"

/-- Translation of `CommentAnalyzer.detect_viral_chains` (database-facing
wrapper). -/
def detect_viral_chains (vmr vmu : Int) (db : AppDb) (post_id : Int) :
    Except String ViralChainAnalysis :=
  if post_id ∈ db.posts then
    .ok (detect_viral_chains_list vmr vmu post_id
      (db.comments.filter (fun c => decide (c.post_id = post_id))))
  else .error "Post not found"

end CommentAnalyzer

namespace CommentAnalyzer

/-- Well-formedness of database rows: comment ids are unique (primary
key). -/
def IdsNodup (cs : List CommentRec) : Prop := (cs.map (fun c => c.id)).Nodup

/-- Paths the recursive traversal actually walks: `PathTo cs p c` holds
when the analyzer, starting from a null-parent root, reaches comment `c`
with `p` the list of its strict ancestors, following the children index
(`d` is a child of `b` when `d.parent_id = some b.id`). -/
inductive PathTo (cs : List CommentRec) : List CommentRec → CommentRec → Prop where
  | start (c : CommentRec) (hc : c ∈ cs) (hr : c.parent_id = none) : PathTo cs [] c
  | step (p : List CommentRec) (b c : CommentRec) (hp : PathTo cs p b) (hc : c ∈ cs)
      (hpar : c.parent_id = some b.id) : PathTo cs (p ++ [b]) c

theorem pathTo_tip_mem {cs : List CommentRec} {p : List CommentRec} {c : CommentRec}
    (h : PathTo cs p c) : c ∈ cs := by
  cases h <;> assumption

theorem pathTo_sub {cs : List CommentRec} :
    ∀ {p : List CommentRec} {c : CommentRec}, PathTo cs p c →
    ∀ x ∈ p ++ [c], ∃ q, PathTo cs q x ∧ (q ++ [x]) <+: (p ++ [c]) := by
  intro p c h
  induction h with
  | start c hc hr =>
    intro x hx
    simp only [List.nil_append, List.mem_singleton] at hx
    subst hx
    exact ⟨[], PathTo.start x hc hr, by simp⟩
  | step p b c hp hc hpar ih =>
    intro x hx
    rcases List.mem_append.mp hx with hx | hx
    · rcases ih x hx with ⟨q, hq, hpre⟩
      exact ⟨q, hq, hpre.trans (List.prefix_append _ _)⟩
    · simp only [List.mem_singleton] at hx
      subst hx
      exact ⟨p ++ [b], PathTo.step p b x hp hc hpar, List.prefix_rfl⟩

theorem pathTo_nodup {cs : List CommentRec} (hids : IdsNodup cs) :
    ∀ {p : List CommentRec} {c : CommentRec}, PathTo cs p c → (p ++ [c]).Nodup := by
  intro p c h
  induction h with
  | start c hc hr => simp
  | step p b c hp hc hpar ih =>
    have hnotmem : c ∉ p ++ [b] := by
      intro hcmem
      obtain ⟨q, hq, hqpre⟩ := pathTo_sub hp c hcmem
      cases hq with
      | start _ _ hr => rw [hpar] at hr; cases hr
      | step q' b' _ hq' hc' hpar' =>
        have hbid : b'.id = b.id := by
          rw [hpar] at hpar'
          exact (Option.some.inj hpar').symm
        have hb'mem : b' ∈ cs := pathTo_tip_mem hq'
        have hbmem : b ∈ cs := pathTo_tip_mem hp
        have hbb : b' = b := List.inj_on_of_nodup_map hids hb'mem hbmem hbid
        subst hbb
        rcases hqpre with ⟨rest, hrest⟩
        have hassoc : (q' ++ [b']) ++ ([c] ++ rest) = p ++ [b'] := by
          rw [← hrest]
          simp [List.append_assoc]
        have hrb : b' ∈ [c] ++ rest := by
          have hlast : ((q' ++ [b']) ++ ([c] ++ rest)).getLast? = some b' := by
            rw [hassoc]
            exact List.getLast?_concat p
          rw [List.getLast?_append] at hlast
          have hne : ([c] ++ rest).getLast? ≠ none := by
            cases hh : ([c] ++ rest).getLast? with
            | none =>
              have := List.getLast?_eq_none_iff.mp hh
              simp at this
            | some _ => simp
          cases hh : ([c] ++ rest).getLast? with
          | none => exact absurd hh hne
          | some y =>
            rw [hh] at hlast
            simp only [Option.or_some, Option.some.injEq] at hlast
            subst hlast
            exact List.mem_of_mem_getLast? hh
        have hnodup2 : ((q' ++ [b']) ++ ([c] ++ rest)).Nodup := by
          rw [hassoc]
          exact ih
        have hdisj := List.disjoint_of_nodup_append hnodup2
        exact hdisj (by simp) hrb
    have h2 : ((p ++ [b]) ++ [c]).Nodup := by
      rw [List.nodup_append]
      refine ⟨ih, List.nodup_singleton c, ?_⟩
      intro x hx hxc
      simp only [List.mem_singleton] at hxc
      subst hxc
      exact hnotmem hx
    exact h2

theorem pathTo_mem_all {cs : List CommentRec} {p : List CommentRec} {c : CommentRec}
    (h : PathTo cs p c) : ∀ x ∈ p ++ [c], x ∈ cs := by
  intro x hx
  obtain ⟨q, hq, _⟩ := pathTo_sub h x hx
  exact pathTo_tip_mem hq

theorem pathTo_length {cs : List CommentRec} (hids : IdsNodup cs)
    {p : List CommentRec} {c : CommentRec} (h : PathTo cs p c) :
    p.length + 1 ≤ cs.length := by
  have hnd := pathTo_nodup hids h
  have hmem := pathTo_mem_all h
  have h1 : (p ++ [c]).length = (p ++ [c]).toFinset.card :=
    (List.toFinset_card_of_nodup hnd).symm
  have h2 : (p ++ [c]).toFinset ⊆ cs.toFinset := by
    intro x hx
    rw [List.mem_toFinset] at hx ⊢
    exact hmem x hx
  have h3 := Finset.card_le_card h2
  have h4 := List.toFinset_card_le cs
  simp only [List.length_append, List.length_singleton] at h1
  omega

theorem children_of_mem {cs : List CommentRec} {c d : CommentRec}
    (hd : d ∈ children_of cs c) : d ∈ cs ∧ d.parent_id = some c.id := by
  rcases List.mem_filter.mp hd with ⟨h1, h2⟩
  exact ⟨h1, by simpa [decide_eq_true_eq] using h2⟩

theorem pathTo_child {cs : List CommentRec} {p : List CommentRec} {c d : CommentRec}
    (hp : PathTo cs p c) (hd : d ∈ children_of cs c) : PathTo cs (p ++ [c]) d := by
  rcases children_of_mem hd with ⟨h1, h2⟩
  exact PathTo.step p c d hp h1 h2

theorem calculate_depth_stable {cs : List CommentRec} (hids : IdsNodup cs) :
    ∀ (n : Nat) (p : List CommentRec) (c : CommentRec), PathTo cs p c →
    cs.length ≤ p.length + n →
    ∀ f₁ f₂, n ≤ f₁ → n ≤ f₂ →
    calculate_depth cs f₁ c = calculate_depth cs f₂ c := by
  intro n
  induction n with
  | zero =>
    intro p c hp hlen f₁ f₂ _ _
    exfalso
    have := pathTo_length hids hp
    omega
  | succ n ih =>
    intro p c hp hlen f₁ f₂ hf₁ hf₂
    obtain ⟨g₁, rfl⟩ := Nat.exists_eq_succ_of_ne_zero (by omega : f₁ ≠ 0)
    obtain ⟨g₂, rfl⟩ := Nat.exists_eq_succ_of_ne_zero (by omega : f₂ ≠ 0)
    simp only [calculate_depth]
    by_cases hch : (children_of cs c).isEmpty
    · simp [hch]
    · simp only [hch, Bool.false_eq_true, if_neg, not_false_iff]
      have hmap : (children_of cs c).map (calculate_depth cs g₁) =
          (children_of cs c).map (calculate_depth cs g₂) := by
        apply List.map_congr_left
        intro d hd
        exact ih (p ++ [c]) d (pathTo_child hp hd)
          (by simp only [List.length_append, List.length_singleton]; omega)
          g₁ g₂ (by omega) (by omega)
      rw [hmap]

theorem find_viral_chains_stable {vmr vmu : Int} {cs : List CommentRec}
    (hids : IdsNodup cs) :
    ∀ (n : Nat) (p : List CommentRec) (c : CommentRec), PathTo cs p c →
    cs.length ≤ p.length + n →
    ∀ f₁ f₂, n ≤ f₁ → n ≤ f₂ → ∀ pre,
    find_viral_chains vmr vmu cs f₁ c pre = find_viral_chains vmr vmu cs f₂ c pre := by
  intro n
  induction n with
  | zero =>
    intro p c hp hlen f₁ f₂ _ _ pre
    exfalso
    have := pathTo_length hids hp
    omega
  | succ n ih =>
    intro p c hp hlen f₁ f₂ hf₁ hf₂ pre
    obtain ⟨g₁, rfl⟩ := Nat.exists_eq_succ_of_ne_zero (by omega : f₁ ≠ 0)
    obtain ⟨g₂, rfl⟩ := Nat.exists_eq_succ_of_ne_zero (by omega : f₂ ≠ 0)
    simp only [find_viral_chains]
    by_cases hch : ((children_of cs c).filter (is_viral_comment vmr vmu cs)).isEmpty
    · simp [hch]
    · simp only [hch, Bool.false_eq_true, if_neg, not_false_iff]
      have hmap : ((children_of cs c).filter (is_viral_comment vmr vmu cs)).map
          (fun d => find_viral_chains vmr vmu cs g₁ d (pre ++ [c])) =
          ((children_of cs c).filter (is_viral_comment vmr vmu cs)).map
          (fun d => find_viral_chains vmr vmu cs g₂ d (pre ++ [c])) := by
        apply List.map_congr_left
        intro d hd
        exact ih (p ++ [c]) d (pathTo_child hp (List.mem_of_mem_filter hd))
          (by simp only [List.length_append, List.length_singleton]; omega)
          g₁ g₂ (by omega) (by omega) (pre ++ [c])
      rw [hmap]

theorem build_tree_node_stable {cs : List CommentRec} (hids : IdsNodup cs) :
    ∀ (n : Nat) (p : List CommentRec) (c : CommentRec), PathTo cs p c →
    cs.length ≤ p.length + n →
    ∀ f₁ f₂, n ≤ f₁ → n ≤ f₂ →
    build_tree_node cs f₁ c = build_tree_node cs f₂ c := by
  intro n
  induction n with
  | zero =>
    intro p c hp hlen f₁ f₂ _ _
    exfalso
    have := pathTo_length hids hp
    omega
  | succ n ih =>
    intro p c hp hlen f₁ f₂ hf₁ hf₂
    obtain ⟨g₁, rfl⟩ := Nat.exists_eq_succ_of_ne_zero (by omega : f₁ ≠ 0)
    obtain ⟨g₂, rfl⟩ := Nat.exists_eq_succ_of_ne_zero (by omega : f₂ ≠ 0)
    simp only [build_tree_node]
    have hmap : (children_of cs c).map (build_tree_node cs g₁) =
        (children_of cs c).map (build_tree_node cs g₂) := by
      apply List.map_congr_left
      intro d hd
      exact ih (p ++ [c]) d (pathTo_child hp hd)
        (by simp only [List.length_append, List.length_singleton]; omega)
        g₁ g₂ (by omega) (by omega)
    rw [hmap]

theorem calculate_depth_unfold {cs : List CommentRec} (hids : IdsNodup cs)
    {p : List CommentRec} {c : CommentRec} (hp : PathTo cs p c) :
    calculate_depth cs cs.length c =
      (if (children_of cs c).isEmpty then 1
       else 1 + listMax ((children_of cs c).map (calculate_depth cs cs.length))) := by
  have hlen := pathTo_length hids hp
  obtain ⟨g, hg⟩ : ∃ g, cs.length = g + 1 := ⟨cs.length - 1, by omega⟩
  conv_lhs => rw [hg]
  simp only [calculate_depth]
  by_cases hch : (children_of cs c).isEmpty
  · simp [hch]
  · simp only [hch, Bool.false_eq_true, if_neg, not_false_iff]
    have hmap : (children_of cs c).map (calculate_depth cs g) =
        (children_of cs c).map (calculate_depth cs cs.length) := by
      apply List.map_congr_left
      intro d hd
      exact calculate_depth_stable hids (cs.length - (p.length + 1)) (p ++ [c]) d
        (pathTo_child hp hd)
        (by simp only [List.length_append, List.length_singleton]; omega)
        g cs.length (by omega) (by omega)
    rw [hmap]

/-- Claim C9: for every comment list with distinct ids — cyclic or
self-referential `parent_id` data included — the depth recursion, the
viral-chain backtracking and the tree serialization, started from a
null-parent root as the analyzer does, are fuel-independent from
`comments.length` on: the recursion needs only finitely many steps, i.e.
it terminates, because members of a parent cycle are never reachable from
a null-parent root. -/
theorem claim_C9_termination (vmr vmu : Int) (cs : List CommentRec)
    (hids : IdsNodup cs) (r : CommentRec) (hr : r ∈ cs)
    (hroot : r.parent_id = none) (f : Nat) (hf : cs.length ≤ f) :
    calculate_depth cs f r = calculate_depth cs cs.length r ∧
    (∀ pre, find_viral_chains vmr vmu cs f r pre =
      find_viral_chains vmr vmu cs cs.length r pre) ∧
    build_tree_node cs f r = build_tree_node cs cs.length r := by
  have hp : PathTo cs [] r := PathTo.start r hr hroot
  refine ⟨?_, ?_, ?_⟩
  · exact calculate_depth_stable hids cs.length [] r hp (by simp) f cs.length hf le_rfl
  · intro pre
    exact find_viral_chains_stable hids cs.length [] r hp (by simp) f cs.length hf
      le_rfl pre
  · exact build_tree_node_stable hids cs.length [] r hp (by simp) f cs.length hf le_rfl

/-- Claim C9 witness: the termination theorem applied to a list whose
second and third comments form a parent cycle (2 ↔ 3) unreachable from the
null-parent root 1. -/
theorem claim_C9_termination_witness :
    IdsNodup [⟨1, none, 0, 1⟩, ⟨2, some 3, 0, 1⟩, ⟨3, some 2, 0, 1⟩] ∧
    (⟨1, none, 0, 1⟩ : CommentRec) ∈
      [⟨1, none, 0, 1⟩, ⟨2, some 3, 0, 1⟩, ⟨3, some 2, 0, 1⟩] ∧
    calculate_depth [⟨1, none, 0, 1⟩, ⟨2, some 3, 0, 1⟩, ⟨3, some 2, 0, 1⟩] 7
        ⟨1, none, 0, 1⟩ =
      calculate_depth [⟨1, none, 0, 1⟩, ⟨2, some 3, 0, 1⟩, ⟨3, some 2, 0, 1⟩]
        ([⟨1, none, 0, 1⟩, ⟨2, some 3, 0, 1⟩, ⟨3, some 2, 0, 1⟩] : List CommentRec).length
        ⟨1, none, 0, 1⟩ :=
  ⟨by unfold IdsNodup; decide, by decide,
    (claim_C9_termination 3 10 [⟨1, none, 0, 1⟩, ⟨2, some 3, 0, 1⟩, ⟨3, some 2, 0, 1⟩]
      (by unfold IdsNodup; decide) ⟨1, none, 0, 1⟩ (by decide) (by decide) 7
      (by decide)).1⟩

theorem mem_alistSet [DecidableEq κ] {k : κ} {v : β} {l : List (κ × β)} {q : κ × β}
    (hq : q ∈ alistSet k v l) : q = (k, v) ∨ q ∈ l := by
  induction l with
  | nil => simpa [alistSet] using hq
  | cons e es ih =>
    unfold alistSet at hq
    by_cases h : e.1 = k
    · rw [if_pos h] at hq
      rcases List.mem_cons.mp hq with hq | hq
      · exact Or.inl hq
      · exact Or.inr (List.mem_cons_of_mem e hq)
    · rw [if_neg h] at hq
      rcases List.mem_cons.mp hq with hq | hq
      · exact Or.inr (hq ▸ List.mem_cons_self e es)
      · rcases ih hq with hh | hh
        · exact Or.inl hh
        · exact Or.inr (List.mem_cons_of_mem e hh)

theorem alistFind_eq_some_mem [DecidableEq κ] {k : κ} {v : β} {l : List (κ × β)}
    (h : alistFind k l = some v) : (k, v) ∈ l := by
  induction l with
  | nil => cases h
  | cons e es ih =>
    unfold alistFind at h
    by_cases he : e.1 = k
    · rw [if_pos he] at h
      have hv : e.2 = v := Option.some.inj h
      have hkv : (k, v) = e := by
        rw [← he, ← hv]
      rw [hkv]
      exact List.mem_cons_self e es
    · rw [if_neg he] at h
      exact List.mem_cons_of_mem e (ih h)

/-- Soundness of the depth cache: every stored pair is the id of a comment
of the list together with its true (unmemoized) depth. -/
def CacheSound (cs : List CommentRec) (cache : List (Int × Nat)) : Prop :=
  ∀ q ∈ cache, ∃ d ∈ cs, d.id = q.1 ∧ q.2 = calculate_depth cs cs.length d

theorem cacheSound_set {cs : List CommentRec} {cache : List (Int × Nat)}
    (h : CacheSound cs cache) {c : CommentRec} (hc : c ∈ cs) {v : Nat}
    (hv : v = calculate_depth cs cs.length c) :
    CacheSound cs (alistSet c.id v cache) := by
  intro q hq
  rcases mem_alistSet hq with hq | hq
  · exact ⟨c, hc, by rw [hq], by rw [hq]; exact hv⟩
  · exact h q hq

theorem calculate_depth_memo_correct {cs : List CommentRec} (hids : IdsNodup cs) :
    ∀ (n : Nat) (p : List CommentRec) (c : CommentRec), PathTo cs p c →
    cs.length ≤ p.length + n →
    ∀ f, n ≤ f → ∀ cache, CacheSound cs cache →
    (calculate_depth_memo cs f c cache).1 = calculate_depth cs cs.length c ∧
    CacheSound cs (calculate_depth_memo cs f c cache).2 := by
  intro n
  induction n with
  | zero =>
    intro p c hp hlen f _ cache _
    exfalso
    have := pathTo_length hids hp
    omega
  | succ n ih =>
    intro p c hp hlen f hf cache hcache
    obtain ⟨g, rfl⟩ := Nat.exists_eq_succ_of_ne_zero (by omega : f ≠ 0)
    simp only [calculate_depth_memo]
    cases hfind : alistFind c.id cache with
    | some v =>
      simp only
      constructor
      · obtain ⟨d, hd, hdid, hdv⟩ := hcache (c.id, v) (alistFind_eq_some_mem hfind)
        dsimp only at hdid hdv
        have hdc : d = c :=
          List.inj_on_of_nodup_map hids hd (pathTo_tip_mem hp) hdid
        rw [hdv, hdc]
      · exact hcache
    | none =>
      simp only
      by_cases hch : (children_of cs c).isEmpty
      · simp only [hch, if_pos]
        constructor
        · rw [calculate_depth_unfold hids hp]
          simp [hch]
        · exact cacheSound_set hcache (pathTo_tip_mem hp)
            (by rw [calculate_depth_unfold hids hp]; simp [hch])
      · simp only [hch, Bool.false_eq_true, if_neg, not_false_iff]
        have hfold : ∀ (ds : List CommentRec), (∀ d ∈ ds, d ∈ children_of cs c) →
            ∀ (a : Nat) (cache' : List (Int × Nat)), CacheSound cs cache' →
            (ds.foldl (fun acc d =>
                let q := calculate_depth_memo cs g d acc.2
                (Nat.max acc.1 q.1, q.2)) (a, cache')).1 =
              ds.foldl (fun a d => Nat.max a (calculate_depth cs cs.length d)) a ∧
            CacheSound cs (ds.foldl (fun acc d =>
                let q := calculate_depth_memo cs g d acc.2
                (Nat.max acc.1 q.1, q.2)) (a, cache')).2 := by
          intro ds
          induction ds with
          | nil =>
            intro _ a cache' hc'
            exact ⟨rfl, hc'⟩
          | cons d ds ihd =>
            intro hsub a cache' hc'
            simp only [List.foldl_cons]
            have hd := hsub d (List.mem_cons_self d ds)
            have hmemo := ih (p ++ [c]) d (pathTo_child hp hd)
              (by simp only [List.length_append, List.length_singleton]; omega)
              g (by omega) cache' hc'
            have hstep : (Nat.max a (calculate_depth_memo cs g d cache').1,
                (calculate_depth_memo cs g d cache').2) =
                (Nat.max a (calculate_depth cs cs.length d),
                  (calculate_depth_memo cs g d cache').2) := by
              rw [hmemo.1]
            rw [hstep]
            exact ihd (fun x hx => hsub x (List.mem_cons_of_mem d hx))
              (Nat.max a (calculate_depth cs cs.length d))
              (calculate_depth_memo cs g d cache').2 hmemo.2
        have hmain := hfold (children_of cs c) (fun d hd => hd) 0 cache hcache
        constructor
        · rw [hmain.1, calculate_depth_unfold hids hp]
          simp only [hch, Bool.false_eq_true, if_neg, not_false_iff]
          have hlm : (children_of cs c).foldl
              (fun a d => Nat.max a (calculate_depth cs cs.length d)) 0 =
              listMax ((children_of cs c).map (calculate_depth cs cs.length)) := by
            unfold listMax
            rw [List.foldl_map]
          rw [hlm]
        · apply cacheSound_set hmain.2 (pathTo_tip_mem hp)
          rw [hmain.1, calculate_depth_unfold hids hp]
          simp only [hch, Bool.false_eq_true, if_neg, not_false_iff]
          unfold listMax
          rw [List.foldl_map]

theorem analyze_depth_list_cache_eq (pid : Int) (cs : List CommentRec)
    (hids : IdsNodup cs) :
    analyze_depth_list true pid cs = analyze_depth_list false pid cs := by
  unfold analyze_depth_list
  by_cases hemp : cs.isEmpty
  · simp [hemp]
  · simp only [hemp, Bool.false_eq_true, if_neg, not_false_iff]
    have hroots : ∀ r ∈ cs.filter (fun c => decide (c.parent_id = none)),
        r ∈ cs ∧ r.parent_id = none := by
      intro r hr
      rcases List.mem_filter.mp hr with ⟨h1, h2⟩
      exact ⟨h1, by simpa [decide_eq_true_eq] using h2⟩
    have hfold : ∀ (rs : List CommentRec), (∀ r ∈ rs, r ∈ cs ∧ r.parent_id = none) →
        ∀ (a : Nat) (cache : List (Int × Nat)), CacheSound cs cache →
        (rs.foldl (fun acc r =>
            let q := calculate_depth_memo cs cs.length r acc.2
            (Nat.max acc.1 q.1, q.2)) (a, cache)).1 =
          rs.foldl (fun a r => Nat.max a (calculate_depth cs cs.length r)) a := by
      intro rs
      induction rs with
      | nil =>
        intro _ a cache _
        rfl
      | cons r rs ihr =>
        intro hsub a cache hcache
        simp only [List.foldl_cons]
        have hr := hsub r (List.mem_cons_self r rs)
        have hmemo := calculate_depth_memo_correct hids cs.length [] r
          (PathTo.start r hr.1 hr.2) (by simp) cs.length le_rfl cache hcache
        have hstep : (Nat.max a (calculate_depth_memo cs cs.length r cache).1,
            (calculate_depth_memo cs cs.length r cache).2) =
            (Nat.max a (calculate_depth cs cs.length r),
              (calculate_depth_memo cs cs.length r cache).2) := by
          rw [hmemo.1]
        rw [hstep]
        exact ihr (fun x hx => hsub x (List.mem_cons_of_mem r hx))
          (Nat.max a (calculate_depth cs cs.length r))
          (calculate_depth_memo cs cs.length r cache).2 hmemo.2
    have h := hfold (cs.filter (fun c => decide (c.parent_id = none))) hroots 0 []
      (by intro q hq; cases hq)
    simp [CommentDepthAnalysis.mk.injEq, h]

/-- Claim C10: `analyze_depth` returns the same result record whether the
analyzer memoizes the depth recursion (`cache_enabled=True`, the default)
or recomputes it (`cache_enabled=False`), for every database whose comment
ids are unique: the cache changes only the work performed, never the
result. -/
theorem claim_C10_cache_irrelevant (db : AppDb) (pid : Int)
    (hids : IdsNodup db.comments) :
    CommentAnalyzer.analyze_depth true db pid =
      CommentAnalyzer.analyze_depth false db pid := by
  unfold CommentAnalyzer.analyze_depth
  by_cases hmem : pid ∈ db.posts
  · simp only [if_pos hmem, Except.ok.injEq]
    apply analyze_depth_list_cache_eq
    unfold IdsNodup at *
    refine List.Sublist.nodup ?_ hids
    exact (List.filter_sublist _).map _
  · simp [if_neg hmem]

/-- Claim C10 witness: cache on and cache off agree on a concrete
two-comment thread. -/
theorem claim_C10_cache_irrelevant_witness :
    IdsNodup (AppDb.mk [1] [⟨1, none, 0, 1⟩, ⟨2, some 1, 5, 1⟩]).comments ∧
    CommentAnalyzer.analyze_depth true (AppDb.mk [1] [⟨1, none, 0, 1⟩, ⟨2, some 1, 5, 1⟩]) 1 =
      CommentAnalyzer.analyze_depth false (AppDb.mk [1] [⟨1, none, 0, 1⟩, ⟨2, some 1, 5, 1⟩]) 1 :=
  ⟨by unfold IdsNodup; decide,
    claim_C10_cache_irrelevant (AppDb.mk [1] [⟨1, none, 0, 1⟩, ⟨2, some 1, 5, 1⟩]) 1
      (by unfold IdsNodup; decide)⟩

/-- The `i`-th comment (0-based) of a linear chain: ids 1..N, comment
`i+1` replying to comment `i`, each with `u` upvotes. -/
def chainNode (i : Nat) (u : Int) : CommentRec :=
  { id := (i : Int) + 1,
    parent_id := if i = 0 then none else some (i : Int),
    upvotes := u, post_id := 1 }

/-- A linear chain of `N` comments. -/
def chainComments (N : Nat) (u : Int) : List CommentRec :=
  (List.range N).map (fun i => chainNode i u)

/-- Root of the star family. -/
def starRoot : CommentRec :=
  { id := 1, parent_id := none, upvotes := 0, post_id := 1 }

/-- The `i`-th direct child (0-based, id `i+2`) of the star root. -/
def starChild (i : Nat) : CommentRec :=
  { id := (i : Int) + 2, parent_id := some 1, upvotes := 0, post_id := 1 }

/-- A star: root comment 1 with `M` direct children (ids 2..M+1). -/
def starComments (M : Nat) : List CommentRec :=
  starRoot :: (List.range M).map starChild

theorem range_filter_eq (k N : Nat) :
    (List.range N).filter (fun i => decide (i = k)) =
      if k < N then [k] else [] := by
  induction N with
  | zero => simp
  | succ N ih =>
    rw [List.range_succ, List.filter_append, ih]
    by_cases h1 : k < N
    · have h2 : ¬ (N = k) := by omega
      have h3 : k < N + 1 := by omega
      simp [h1, h2, h3]
    · by_cases h2 : k = N
      · subst h2
        simp [h1]
      · have h3 : ¬ (k < N + 1) := by omega
        have h4 : ¬ (N = k) := fun h => h2 h.symm
        simp [h1, h3, h4]

theorem chain_children (N : Nat) (u : Int) (k : Nat) :
    children_of (chainComments N u) (chainNode k u) =
      if k + 1 < N then [chainNode (k + 1) u] else [] := by
  unfold children_of chainComments
  rw [List.filter_map]
  have hcong : (List.range N).filter
      ((fun d => decide (d.parent_id = some (chainNode k u).id)) ∘ (fun i => chainNode i u)) =
      (List.range N).filter (fun i => decide (i = k + 1)) := by
    apply List.filter_congr
    intro i _
    simp only [Function.comp, chainNode]
    by_cases hi : i = 0
    · simp only [hi, if_pos rfl]
      have : ¬ ((0 : Nat) = k + 1) := by omega
      simp [this]
    · simp only [hi, Bool.false_eq_true, if_neg, not_false_iff]
      rw [decide_eq_decide]
      constructor
      · intro h
        have := Option.some.inj h
        omega
      · intro h
        subst h
        simp
  rw [hcong, range_filter_eq]
  by_cases h : k + 1 < N
  · simp [h]
  · simp [h]

theorem chain_roots (N : Nat) (u : Int) (hN : 1 ≤ N) :
    (chainComments N u).filter (fun c => decide (c.parent_id = none)) =
      [chainNode 0 u] := by
  unfold chainComments
  rw [List.filter_map]
  have hcong : (List.range N).filter
      ((fun c => decide (c.parent_id = none)) ∘ (fun i => chainNode i u)) =
      (List.range N).filter (fun i => decide (i = 0)) := by
    apply List.filter_congr
    intro i _
    simp only [Function.comp, chainNode]
    by_cases hi : i = 0
    · simp [hi]
    · simp [hi]
  rw [hcong, range_filter_eq]
  have h0 : 0 < N := hN
  simp [h0]

theorem listMax_single (x : Nat) : listMax [x] = x := by
  simp [listMax]

theorem chain_depth (N : Nat) (u : Int) :
    ∀ (d k : Nat), k + d = N → 0 < d → ∀ f, d ≤ f →
    calculate_depth (chainComments N u) f (chainNode k u) = d := by
  intro d
  induction d with
  | zero =>
    intro k hk hd
    omega
  | succ d ihd =>
    intro k hk hd f hf
    obtain ⟨g, rfl⟩ := Nat.exists_eq_succ_of_ne_zero (by omega : f ≠ 0)
    simp only [calculate_depth]
    rw [chain_children N u k]
    by_cases hlast : k + 1 < N
    · have hd1 : 0 < d := by omega
      rw [if_pos hlast]
      simp only [List.isEmpty_cons, Bool.false_eq_true, if_neg, not_false_iff,
        List.map_cons, List.map_nil]
      rw [ihd (k + 1) (by omega) hd1 g (by omega), listMax_single]
      omega
    · have hd0 : d = 0 := by omega
      rw [if_neg hlast]
      simp [hd0]

theorem star_children_root (M : Nat) :
    children_of (starComments M) starRoot = (List.range M).map starChild := by
  unfold children_of starComments
  rw [List.filter_cons]
  have hroot : (decide (starRoot.parent_id = some starRoot.id)) = false := by
    simp [starRoot]
  rw [hroot]
  simp only [Bool.false_eq_true, if_neg, not_false_iff]
  rw [List.filter_map]
  have hcong : (List.range M).filter
      ((fun d => decide (d.parent_id = some starRoot.id)) ∘ starChild) =
      (List.range M).filter (fun _ => true) := by
    apply List.filter_congr
    intro i _
    simp [Function.comp, starChild, starRoot]
  rw [hcong, List.filter_true]

theorem star_children_child (M : Nat) (i : Nat) :
    children_of (starComments M) (starChild i) = [] := by
  unfold children_of starComments
  rw [List.filter_cons]
  have hroot : (decide (starRoot.parent_id = some (starChild i).id)) = false := by
    simp [starRoot, starChild]
  rw [hroot]
  simp only [Bool.false_eq_true, if_neg, not_false_iff]
  rw [List.filter_map]
  have hcong : (List.range M).filter
      ((fun d => decide (d.parent_id = some (starChild i).id)) ∘ starChild) =
      (List.range M).filter (fun _ => false) := by
    apply List.filter_congr
    intro j _
    simp only [Function.comp, starChild]
    rw [decide_eq_false_iff_not]
    intro h
    have := Option.some.inj h
    omega
  rw [hcong, List.filter_false, List.map_nil]

theorem star_roots (M : Nat) :
    (starComments M).filter (fun c => decide (c.parent_id = none)) = [starRoot] := by
  unfold starComments
  rw [List.filter_cons]
  have hroot : (decide (starRoot.parent_id = none)) = true := by
    simp [starRoot]
  rw [hroot]
  simp only [if_pos]
  rw [List.filter_map]
  have hcong : (List.range M).filter
      ((fun c => decide (c.parent_id = none)) ∘ starChild) =
      (List.range M).filter (fun _ => false) := by
    apply List.filter_congr
    intro j _
    simp [Function.comp, starChild]
  rw [hcong, List.filter_false, List.map_nil]

theorem foldl_max_all_eq (v : Nat) :
    ∀ (l : List Nat), (∀ x ∈ l, x = v) → ∀ a : Nat,
    l.foldl Nat.max a = if l.isEmpty then a else Nat.max a v := by
  intro l
  induction l with
  | nil => intro _ a; simp
  | cons x xs ih =>
    intro hall a
    have hx : x = v := hall x (List.mem_cons_self x xs)
    simp only [List.foldl_cons, List.isEmpty_cons, Bool.false_eq_true, if_neg,
      not_false_iff]
    rw [ih (fun y hy => hall y (List.mem_cons_of_mem x hy)) (Nat.max a x)]
    by_cases hxs : xs.isEmpty
    · simp [hxs, hx]
    · simp only [hxs, Bool.false_eq_true, if_neg, not_false_iff]
      rw [hx]
      simp only [Nat.max_def]
      split_ifs <;> omega

theorem star_depth_root (M : Nat) (hM : 1 ≤ M) (f : Nat) (hf : 2 ≤ f) :
    calculate_depth (starComments M) f starRoot = 2 := by
  obtain ⟨g, rfl⟩ := Nat.exists_eq_succ_of_ne_zero (by omega : f ≠ 0)
  simp only [calculate_depth]
  rw [star_children_root]
  have hne : ¬ ((List.range M).map starChild).isEmpty := by
    simp [List.isEmpty_iff, hM]
    omega
  simp only [List.isEmpty_iff] at hne
  rw [if_neg (by simpa [List.isEmpty_iff] using hne)]
  have hdepths : ∀ x ∈ ((List.range M).map starChild).map (calculate_depth (starComments M) g),
      x = 1 := by
    intro x hx
    rcases List.mem_map.mp hx with ⟨c, hc, hcx⟩
    rcases List.mem_map.mp hc with ⟨i, _, hic⟩
    obtain ⟨g', rfl⟩ := Nat.exists_eq_succ_of_ne_zero (by omega : g ≠ 0)
    rw [← hcx, ← hic]
    simp only [calculate_depth]
    rw [star_children_child]
    simp
  unfold listMax
  rw [foldl_max_all_eq 1 _ hdepths 0]
  have : ¬ (((List.range M).map starChild).map
      (calculate_depth (starComments M) g)).isEmpty := by
    simp [List.isEmpty_iff]
    omega
  simp only [this, Bool.false_eq_true, if_neg, not_false_iff]
  simp [Nat.max_eq_right]

theorem analyze_max_depth_false (pid : Int) (cs : List CommentRec) :
    (analyze_depth_list false pid cs).max_depth =
      listMax ((cs.filter (fun c => decide (c.parent_id = none))).map
        (calculate_depth cs cs.length)) := by
  unfold analyze_depth_list
  by_cases hemp : cs.isEmpty
  · rw [List.isEmpty_iff] at hemp
    subst hemp
    simp [listMax]
  · simp only [hemp, Bool.false_eq_true, if_neg, not_false_iff]
    unfold listMax
    rw [List.foldl_map]

theorem analyze_max_depth (ce : Bool) (pid : Int) (cs : List CommentRec)
    (hids : IdsNodup cs) :
    (analyze_depth_list ce pid cs).max_depth =
      listMax ((cs.filter (fun c => decide (c.parent_id = none))).map
        (calculate_depth cs cs.length)) := by
  cases ce with
  | false => exact analyze_max_depth_false pid cs
  | true =>
    rw [analyze_depth_list_cache_eq pid cs hids]
    exact analyze_max_depth_false pid cs

theorem analyze_total_comments (ce : Bool) (pid : Int) (cs : List CommentRec) :
    (analyze_depth_list ce pid cs).total_comments = cs.length := by
  unfold analyze_depth_list
  by_cases hemp : cs.isEmpty
  · rw [List.isEmpty_iff] at hemp
    subst hemp
    simp
  · simp [hemp]

theorem analyze_total_replies (ce : Bool) (pid : Int) (cs : List CommentRec) :
    (analyze_depth_list ce pid cs).total_replies =
      (cs.filter (fun c => !(decide (c.parent_id = none)))).length := by
  unfold analyze_depth_list
  by_cases hemp : cs.isEmpty
  · rw [List.isEmpty_iff] at hemp
    subst hemp
    simp
  · simp only [hemp, Bool.false_eq_true, if_neg, not_false_iff]
    have hsplit : cs.length =
        (cs.filter (fun c => decide (c.parent_id = none))).length +
        (cs.filter (fun c => !(decide (c.parent_id = none)))).length :=
      List.length_eq_length_filter_add _
    omega

theorem analyze_average (ce : Bool) (pid : Int) (cs : List CommentRec) (h : cs ≠ []) :
    (analyze_depth_list ce pid cs).average_replies_per_comment =
      (((cs.map (fun c => (children_of cs c).length)).sum : Int) : Rat) /
        ((cs.length : Int) : Rat) := by
  unfold analyze_depth_list
  have hemp : ¬ cs.isEmpty := by
    simpa [List.isEmpty_iff] using h
  simp [hemp]

theorem analyze_empty (ce : Bool) (pid : Int) :
    analyze_depth_list ce pid [] =
      { post_id := pid, max_depth := 0, total_comments := 0, total_replies := 0,
        average_replies_per_comment := 0 } := by
  unfold analyze_depth_list
  simp

theorem chain_idsNodup (N : Nat) (u : Int) : IdsNodup (chainComments N u) := by
  unfold IdsNodup chainComments
  rw [List.map_map]
  have heq : ((fun c : CommentRec => c.id) ∘ fun i => chainNode i u) =
      (fun i : Nat => (i : Int) + 1) := rfl
  rw [heq]
  refine List.Nodup.map ?_ (List.nodup_range N)
  intro a b hab
  simp only at hab
  omega

theorem star_idsNodup (M : Nat) : IdsNodup (starComments M) := by
  unfold IdsNodup starComments
  simp only [List.map_cons, List.nodup_cons, List.map_map]
  constructor
  · intro hmem
    rcases List.mem_map.mp hmem with ⟨i, _, hi⟩
    have : ((starChild i).id : Int) = 1 := hi
    simp only [starChild] at this
    omega
  · refine List.Nodup.map ?_ (List.nodup_range M)
    intro a b hab
    simp only [Function.comp, starChild] at hab
    omega

theorem chain_analysis (ce : Bool) (pid : Int) (N : Nat) (hN : 1 ≤ N) (u : Int) :
    (analyze_depth_list ce pid (chainComments N u)).max_depth = N ∧
    (analyze_depth_list ce pid (chainComments N u)).total_replies = N - 1 := by
  have hlen : (chainComments N u).length = N := by
    unfold chainComments
    rw [List.length_map, List.length_range]
  constructor
  · rw [analyze_max_depth ce pid _ (chain_idsNodup N u), chain_roots N u hN]
    rw [List.map_cons, List.map_nil, listMax_single, hlen]
    exact chain_depth N u N 0 (by omega) (by omega) N le_rfl
  · rw [analyze_total_replies]
    have hsplit : (chainComments N u).length =
        ((chainComments N u).filter (fun c => decide (c.parent_id = none))).length +
        ((chainComments N u).filter (fun c => !(decide (c.parent_id = none)))).length :=
      List.length_eq_length_filter_add _
    rw [chain_roots N u hN] at hsplit
    simp only [List.length_singleton] at hsplit
    omega

theorem star_analysis (ce : Bool) (pid : Int) (M : Nat) (hM : 1 ≤ M) :
    (analyze_depth_list ce pid (starComments M)).max_depth = 2 ∧
    (analyze_depth_list ce pid (starComments M)).average_replies_per_comment =
      (M : Rat) / ((M : Rat) + 1) := by
  have hlen : (starComments M).length = M + 1 := by
    unfold starComments
    rw [List.length_cons, List.length_map, List.length_range]
  constructor
  · rw [analyze_max_depth ce pid _ (star_idsNodup M), star_roots M]
    rw [List.map_cons, List.map_nil, listMax_single, hlen]
    exact star_depth_root M hM (M + 1) (by omega)
  · rw [analyze_average ce pid _ (by simp [starComments])]
    have hsum : ((starComments M).map
        (fun c => (children_of (starComments M) c).length)).sum = M := by
      have hmap : (starComments M).map
          (fun c => (children_of (starComments M) c).length) =
          (children_of (starComments M) starRoot).length ::
            ((List.range M).map starChild).map
              (fun c => (children_of (starComments M) c).length) := rfl
      rw [hmap, List.sum_cons]
      have hroot : (children_of (starComments M) starRoot).length = M := by
        rw [star_children_root, List.length_map, List.length_range]
      have hchild : ((List.range M).map starChild).map
          (fun c => (children_of (starComments M) c).length) =
          (List.range M).map (fun _ => 0) := by
        rw [List.map_map]
        apply List.map_congr_left
        intro i _
        simp only [Function.comp]
        rw [star_children_child]
        rfl
      rw [hroot, hchild]
      simp
    rw [hsum, hlen]
    push_cast
    ring

/-- Claim C4: for every comment list with distinct ids (and either cache
setting), the depth of every traversed comment is 1 for a leaf and 1 +
the maximum of its children's depths; `max_depth` is the maximum of the
root depths (0 for an empty list); `total_comments` is the list length;
`total_replies` counts the comments with a non-null parent; the average is
the sum of direct-child counts divided by the comment count (0.0 for an
empty list); a linear chain of `N ≥ 1` comments yields `max_depth = N` and
`total_replies = N - 1`; and a star of one root with `M ≥ 1` children
yields `max_depth = 2` and average `M / (M + 1)`. -/
theorem claim_C4_depth_metrics (ce : Bool) (pid : Int) (cs : List CommentRec)
    (hids : IdsNodup cs) :
    (∀ (p : List CommentRec) (c : CommentRec), PathTo cs p c →
      calculate_depth cs cs.length c =
        (if (children_of cs c).isEmpty then 1
         else 1 + listMax ((children_of cs c).map (calculate_depth cs cs.length)))) ∧
    (analyze_depth_list ce pid cs).max_depth =
      listMax ((cs.filter (fun c => decide (c.parent_id = none))).map
        (calculate_depth cs cs.length)) ∧
    (analyze_depth_list ce pid cs).total_comments = cs.length ∧
    (analyze_depth_list ce pid cs).total_replies =
      (cs.filter (fun c => !(decide (c.parent_id = none)))).length ∧
    (cs ≠ [] → (analyze_depth_list ce pid cs).average_replies_per_comment =
      (((cs.map (fun c => (children_of cs c).length)).sum : Int) : Rat) /
        ((cs.length : Int) : Rat)) ∧
    (cs = [] → analyze_depth_list ce pid cs =
      { post_id := pid, max_depth := 0, total_comments := 0, total_replies := 0,
        average_replies_per_comment := 0 }) ∧
    (∀ (N : Nat) (u : Int), 1 ≤ N →
      (analyze_depth_list ce pid (chainComments N u)).max_depth = N ∧
      (analyze_depth_list ce pid (chainComments N u)).total_replies = N - 1) ∧
    (∀ M : Nat, 1 ≤ M →
      (analyze_depth_list ce pid (starComments M)).max_depth = 2 ∧
      (analyze_depth_list ce pid (starComments M)).average_replies_per_comment =
        (M : Rat) / ((M : Rat) + 1)) := by
  refine ⟨?_, analyze_max_depth ce pid cs hids, analyze_total_comments ce pid cs,
    analyze_total_replies ce pid cs, analyze_average ce pid cs, ?_, ?_, ?_⟩
  · intro p c hp
    exact calculate_depth_unfold hids hp
  · intro h
    subst h
    exact analyze_empty ce pid
  · intro N u hN
    exact chain_analysis ce pid N hN u
  · intro M hM
    exact star_analysis ce pid M hM

/-- Claim C4 witness: the metrics theorem applied to a concrete
three-comment thread (root 1 with children 2 and 3). -/
theorem claim_C4_depth_metrics_witness :
    IdsNodup [⟨1, none, 0, 1⟩, ⟨2, some 1, 0, 1⟩, ⟨3, some 1, 0, 1⟩] ∧
    (analyze_depth_list true 1
      [⟨1, none, 0, 1⟩, ⟨2, some 1, 0, 1⟩, ⟨3, some 1, 0, 1⟩]).total_comments =
      ([⟨1, none, 0, 1⟩, ⟨2, some 1, 0, 1⟩, ⟨3, some 1, 0, 1⟩] : List CommentRec).length :=
  ⟨by unfold IdsNodup; decide,
    (claim_C4_depth_metrics true 1 [⟨1, none, 0, 1⟩, ⟨2, some 1, 0, 1⟩, ⟨3, some 1, 0, 1⟩]
      (by unfold IdsNodup; decide)).2.2.1⟩

/-- Claim C5, counterexample to the statement as given: a single comment
whose `parent_id` (999) matches no id in the list is not treated as a
traversal root — `analyze_depth` collects only `parent_id is None`
comments as roots, so `max_depth` is 0 even though a root's subtree would
contribute depth 1 (as `calculate_depth` on the comment shows). -/
theorem claim_C5_counterexample :
    (analyze_depth_list false 1 [⟨1, some 999, 0, 1⟩]).max_depth = 0 ∧
    calculate_depth [⟨1, some 999, 0, 1⟩] 1 ⟨1, some 999, 0, 1⟩ = 1 ∧
    ([⟨1, some 999, 0, 1⟩] : List CommentRec) ≠ [] := by
  refine ⟨?_, ?_, ?_⟩ <;> decide

/-- Claim C5 (amended: a comment whose non-null `parent_id` matches no id
in the list is not treated as a root — the traversal starts only from
null-parent comments; such an orphan is neither a root nor in any
comment's children list, and no traversal path reaches it, so it and its
descendants contribute nothing to `max_depth`). -/
theorem claim_C5_orphan_untraversed (cs : List CommentRec) (c : CommentRec)
    (hc : c ∈ cs) (pidv : Int) (hpar : c.parent_id = some pidv)
    (horph : ∀ d ∈ cs, d.id ≠ pidv) :
    c ∉ cs.filter (fun x => decide (x.parent_id = none)) ∧
    (∀ d ∈ cs, c ∉ children_of cs d) ∧
    (∀ p : List CommentRec, ¬ PathTo cs p c) := by
  refine ⟨?_, ?_, ?_⟩
  · intro hmem
    rcases List.mem_filter.mp hmem with ⟨_, h2⟩
    rw [hpar] at h2
    simp at h2
  · intro d hd hmem
    rcases children_of_mem hmem with ⟨_, h2⟩
    rw [hpar] at h2
    exact horph d hd (Option.some.inj h2).symm
  · intro p hp
    cases hp with
    | start _ _ hr => rw [hpar] at hr; cases hr
    | step q b _ hq hcm hparb =>
      rw [hpar] at hparb
      exact horph b (pathTo_tip_mem hq) (Option.some.inj hparb).symm

/-- Claim C5 witness: the orphan comment with parent 999 in a two-comment
list is not a root, is nobody's child, and is unreachable. -/
theorem claim_C5_orphan_untraversed_witness :
    (⟨2, some 999, 0, 1⟩ : CommentRec) ∈
      ([⟨1, none, 0, 1⟩, ⟨2, some 999, 0, 1⟩] : List CommentRec) ∧
    (⟨2, some 999, 0, 1⟩ : CommentRec).parent_id = some 999 ∧
    (⟨2, some 999, 0, 1⟩ : CommentRec) ∉
      ([⟨1, none, 0, 1⟩, ⟨2, some 999, 0, 1⟩] : List CommentRec).filter
        (fun x => decide (x.parent_id = none)) :=
  ⟨by decide, by decide,
    (claim_C5_orphan_untraversed [⟨1, none, 0, 1⟩, ⟨2, some 999, 0, 1⟩]
      ⟨2, some 999, 0, 1⟩ (by decide) 999 (by decide) (by decide)).1⟩

/-- Claim C8: `analyze_depth` and `detect_viral_chains` fail (with the
NotFound-style error raised before the comments are fetched) exactly when
the referenced post does not exist, and for an existing post with no
comments they return normally with every metric zero. -/
theorem claim_C8_not_found (ce : Bool) (vmr vmu : Int) (db : AppDb) (pid : Int) :
    ((∃ e, CommentAnalyzer.analyze_depth ce db pid = .error e) ↔ pid ∉ db.posts) ∧
    ((∃ e, CommentAnalyzer.detect_viral_chains vmr vmu db pid = .error e) ↔
      pid ∉ db.posts) ∧
    (pid ∈ db.posts →
      db.comments.filter (fun c => decide (c.post_id = pid)) = [] →
      CommentAnalyzer.analyze_depth ce db pid = .ok
        { post_id := pid, max_depth := 0, total_comments := 0, total_replies := 0,
          average_replies_per_comment := 0 } ∧
      CommentAnalyzer.detect_viral_chains vmr vmu db pid = .ok
        { post_id := pid, longest_chain_length := 0, longest_chain_comments := [],
          total_viral_chains := 0, viral_criteria_met := false }) := by
  refine ⟨?_, ?_, ?_⟩
  · unfold CommentAnalyzer.analyze_depth
    by_cases hmem : pid ∈ db.posts
    · simp [hmem]
    · simp [hmem]
  · unfold CommentAnalyzer.detect_viral_chains
    by_cases hmem : pid ∈ db.posts
    · simp [hmem]
    · simp [hmem]
  · intro hmem hfilter
    unfold CommentAnalyzer.analyze_depth CommentAnalyzer.detect_viral_chains
    rw [hfilter]
    constructor
    · simp only [if_pos hmem, Except.ok.injEq]
      exact analyze_empty ce pid
    · simp only [if_pos hmem, Except.ok.injEq]
      unfold detect_viral_chains_list
      simp

/-- Claim C8 witness: a database with post 1 and no comments — analysis
succeeds with zeros; the error equivalences hold at the same database. -/
theorem claim_C8_not_found_witness :
    ((∃ e, CommentAnalyzer.analyze_depth true (AppDb.mk [1] []) 2 = .error e) ↔
      (2 : Int) ∉ ([1] : List Int)) ∧
    (CommentAnalyzer.analyze_depth true (AppDb.mk [1] []) 1 = .ok
      { post_id := 1, max_depth := 0, total_comments := 0, total_replies := 0,
        average_replies_per_comment := 0 }) :=
  ⟨(claim_C8_not_found true 3 10 (AppDb.mk [1] []) 2).1,
    ((claim_C8_not_found true 3 10 (AppDb.mk [1] []) 1).2.2 (by decide) (by decide)).1⟩

/-- Viral descent paths: `VPath vmr vmu cs c l` holds when `l` is a path
`c = x₀, x₁, …, xₖ` through the children index in which every `xᵢ₊₁` is a
viral child of `xᵢ`.  (Virality of the starting comment is checked by the
caller, as in the source.) -/
inductive VPath (vmr vmu : Int) (cs : List CommentRec) : CommentRec → List CommentRec → Prop where
  | single (c : CommentRec) : VPath vmr vmu cs c [c]
  | cons (c d : CommentRec) (l : List CommentRec) (hd : d ∈ children_of cs c)
      (hv : is_viral_comment vmr vmu cs d = true) (hp : VPath vmr vmu cs d l) :
      VPath vmr vmu cs c (c :: l)

theorem vpath_ne_nil {vmr vmu : Int} {cs : List CommentRec} {c : CommentRec}
    {l : List CommentRec} (h : VPath vmr vmu cs c l) : l ≠ [] := by
  cases h <;> simp

theorem vpath_length_pos {vmr vmu : Int} {cs : List CommentRec} {c : CommentRec}
    {l : List CommentRec} (h : VPath vmr vmu cs c l) : 1 ≤ l.length := by
  cases h <;> simp

theorem mem_find_viral_chains (vmr vmu : Int) {cs : List CommentRec}
    (hids : IdsNodup cs) :
    ∀ (n : Nat) (p : List CommentRec) (c : CommentRec), PathTo cs p c →
    cs.length ≤ p.length + n → ∀ f, n ≤ f → ∀ (pre ch : List CommentRec),
    (ch ∈ find_viral_chains vmr vmu cs f c pre ↔
      ∃ l, VPath vmr vmu cs c l ∧ ch = pre ++ l ∧ 2 ≤ pre.length + l.length) := by
  intro n
  induction n with
  | zero =>
    intro p c hp hlen f _ pre ch
    exfalso
    have := pathTo_length hids hp
    omega
  | succ n ih =>
    intro p c hp hlen f hf pre ch
    obtain ⟨g, rfl⟩ := Nat.exists_eq_succ_of_ne_zero (by omega : f ≠ 0)
    simp only [find_viral_chains]
    by_cases hvc : ((children_of cs c).filter (is_viral_comment vmr vmu cs)).isEmpty
    · simp only [hvc, if_pos]
      rw [List.isEmpty_iff] at hvc
      constructor
      · intro hch
        by_cases hlen2 : 2 ≤ (pre ++ [c]).length
        · rw [if_pos hlen2] at hch
          simp only [List.mem_singleton] at hch
          refine ⟨[c], VPath.single c, hch, ?_⟩
          simp only [List.length_append, List.length_singleton] at hlen2
          simpa using hlen2
        · rw [if_neg hlen2] at hch
          cases hch
      · rintro ⟨l, hvp, hche, hlen2⟩
        cases hvp with
        | single _ =>
          have h2 : 2 ≤ (pre ++ [c]).length := by
            simp only [List.length_append, List.length_singleton]
            simpa using hlen2
          rw [if_pos h2]
          simp [hche]
        | cons _ d l' hd hv _ =>
          exfalso
          have : d ∈ (children_of cs c).filter (is_viral_comment vmr vmu cs) :=
            List.mem_filter.mpr ⟨hd, hv⟩
          rw [hvc] at this
          cases this
    · simp only [hvc, Bool.false_eq_true, if_neg, not_false_iff]
      constructor
      · intro hch
        rcases List.mem_append.mp hch with hch | hch
        · rcases List.mem_flatten.mp hch with ⟨sub, hsub, hchsub⟩
          rcases List.mem_map.mp hsub with ⟨d, hd, hdsub⟩
          have hdch := List.mem_of_mem_filter hd
          have hdv := (List.mem_filter.mp hd).2
          have hih := ih (p ++ [c]) d (pathTo_child hp hdch)
            (by simp only [List.length_append, List.length_singleton]; omega)
            g (by omega) (pre ++ [c]) ch
          rw [← hdsub] at hchsub
          rcases hih.mp hchsub with ⟨l', hvp', hche', hlen'⟩
          refine ⟨c :: l', VPath.cons c d l' hdch hdv hvp', ?_, ?_⟩
          · rw [hche']
            simp
          · have hl2 : 2 ≤ pre.length + 1 + l'.length := by
              simpa [List.length_append] using hlen'
            simp only [List.length_cons]
            omega
        · by_cases hlen2 : 2 ≤ (pre ++ [c]).length
          · rw [if_pos hlen2] at hch
            simp only [List.mem_singleton] at hch
            refine ⟨[c], VPath.single c, hch, ?_⟩
            simp only [List.length_append, List.length_singleton] at hlen2
            simpa using hlen2
          · rw [if_neg hlen2] at hch
            cases hch
      · rintro ⟨l, hvp, hche, hlen2⟩
        cases hvp with
        | single _ =>
          apply List.mem_append.mpr
          right
          have h2 : 2 ≤ (pre ++ [c]).length := by
            simp only [List.length_append, List.length_singleton]
            simpa using hlen2
          rw [if_pos h2]
          simp [hche]
        | cons _ d l' hd hv hvp' =>
          apply List.mem_append.mpr
          left
          apply List.mem_flatten.mpr
          refine ⟨find_viral_chains vmr vmu cs g d (pre ++ [c]), ?_, ?_⟩
          · apply List.mem_map.mpr
            exact ⟨d, List.mem_filter.mpr ⟨hd, hv⟩, rfl⟩
          · have hih := ih (p ++ [c]) d (pathTo_child hp hd)
              (by simp only [List.length_append, List.length_singleton]; omega)
              g (by omega) (pre ++ [c]) ch
            apply hih.mpr
            refine ⟨l', hvp', ?_, ?_⟩
            · rw [hche]
              simp
            · simp only [List.length_append, List.length_singleton,
                List.length_cons] at hlen2 ⊢
              omega

/-- The full list of chains `detect_viral_chains` gathers: for each viral
null-parent root in list order, the chains found from it. -/
def all_viral_chains (vmr vmu : Int) (cs : List CommentRec) : List (List CommentRec) :=
  (((cs.filter (fun c => decide (c.parent_id = none))).filter
    (is_viral_comment vmr vmu cs)).map
    (fun r => find_viral_chains vmr vmu cs cs.length r [])).flatten

/-- First-longest element computed by the source's update loop
(`if len(chain) > len(longest_chain)`). -/
def longestOf (l : List (List CommentRec)) : List CommentRec :=
  l.foldl (fun best ch => if best.length < ch.length then ch else best) []

theorem detect_fields (vmr vmu : Int) (pid : Int) (cs : List CommentRec) :
    (detect_viral_chains_list vmr vmu pid cs).total_viral_chains =
      (all_viral_chains vmr vmu cs).length ∧
    (detect_viral_chains_list vmr vmu pid cs).longest_chain_comments =
      (longestOf (all_viral_chains vmr vmu cs)).map (fun c => c.id) ∧
    (detect_viral_chains_list vmr vmu pid cs).longest_chain_length =
      (longestOf (all_viral_chains vmr vmu cs)).length ∧
    (detect_viral_chains_list vmr vmu pid cs).viral_criteria_met =
      decide (0 < (longestOf (all_viral_chains vmr vmu cs)).length) := by
  unfold detect_viral_chains_list all_viral_chains longestOf
  by_cases hemp : cs.isEmpty
  · rw [List.isEmpty_iff] at hemp
    subst hemp
    simp
  · simp [hemp]

theorem foldl_longest_spec :
    ∀ (l : List (List CommentRec)) (acc : List CommentRec),
    (l.foldl (fun best ch => if best.length < ch.length then ch else best) acc = acc ∧
      ∀ ch ∈ l, ch.length ≤ acc.length) ∨
    (∃ l₁ l₂, l = l₁ ++
        (l.foldl (fun best ch => if best.length < ch.length then ch else best) acc) :: l₂ ∧
      acc.length <
        (l.foldl (fun best ch => if best.length < ch.length then ch else best) acc).length ∧
      (∀ ch ∈ l₁, ch.length <
        (l.foldl (fun best ch => if best.length < ch.length then ch else best) acc).length) ∧
      (∀ ch ∈ l₂, ch.length ≤
        (l.foldl (fun best ch => if best.length < ch.length then ch else best) acc).length)) := by
  intro l
  induction l with
  | nil =>
    intro acc
    left
    exact ⟨rfl, by simp⟩
  | cons ch l ih =>
    intro acc
    simp only [List.foldl_cons]
    by_cases hsw : acc.length < ch.length
    · rw [if_pos hsw]
      rcases ih ch with ⟨heq, hall⟩ | ⟨l₁, l₂, hsplit, hlt, hl₁, hl₂⟩
      · right
        refine ⟨[], l, ?_, ?_, ?_, ?_⟩
        · rw [heq]
          simp
        · rw [heq]; exact hsw
        · intro x hx; cases hx
        · rw [heq]; exact hall
      · right
        refine ⟨ch :: l₁, l₂, ?_, ?_, ?_, ?_⟩
        · rw [List.cons_append, ← hsplit]
        · omega
        · intro x hx
          rcases List.mem_cons.mp hx with hx | hx
          · rw [hx]; exact hlt
          · exact hl₁ x hx
        · exact hl₂
    · rw [if_neg hsw]
      rcases ih acc with ⟨heq, hall⟩ | ⟨l₁, l₂, hsplit, hlt, hl₁, hl₂⟩
      · left
        refine ⟨heq, ?_⟩
        intro x hx
        rcases List.mem_cons.mp hx with hx | hx
        · rw [hx]; omega
        · exact hall x hx
      · right
        refine ⟨ch :: l₁, l₂, ?_, hlt, ?_, hl₂⟩
        · rw [List.cons_append, ← hsplit]
        · intro x hx
          rcases List.mem_cons.mp hx with hx | hx
          · rw [hx]; omega
          · exact hl₁ x hx

theorem foldl_longest_const :
    ∀ (l : List (List CommentRec)) (acc : List CommentRec),
    (∀ ch ∈ l, ch.length ≤ acc.length) →
    l.foldl (fun best ch => if best.length < ch.length then ch else best) acc = acc := by
  intro l
  induction l with
  | nil => intro acc _; rfl
  | cons ch l ih =>
    intro acc hall
    have h1 : ¬ acc.length < ch.length := by
      have := hall ch (List.mem_cons_self ch l)
      omega
    simp only [List.foldl_cons, if_neg h1]
    exact ih acc (fun x hx => hall x (List.mem_cons_of_mem ch hx))

/-- Consecutive segment of the chain family: comments `k, k+1, …,
k+len-1` (0-based indices). -/
def chainSeg (u : Int) (k len : Nat) : List CommentRec :=
  (List.range len).map (fun t => chainNode (k + t) u)

theorem chainSeg_length (u : Int) (k len : Nat) : (chainSeg u k len).length = len := by
  unfold chainSeg
  rw [List.length_map, List.length_range]

theorem chainSeg_cons (u : Int) (k len : Nat) :
    chainSeg u k (len + 1) = chainNode k u :: chainSeg u (k + 1) len := by
  unfold chainSeg
  rw [List.range_succ_eq_map, List.map_cons, List.map_map]
  simp only [Nat.add_zero]
  congr 1
  apply List.map_congr_left
  intro t _
  simp only [Function.comp]
  have h2 : k + Nat.succ t = k + 1 + t := by omega
  rw [h2]

theorem chainSeg_one (u : Int) (k : Nat) : chainSeg u k 1 = [chainNode k u] := by
  rw [chainSeg_cons]
  rfl

theorem chain_viral (N : Nat) (k : Nat) :
    is_viral_comment 3 10 (chainComments N 10) (chainNode k 10) = true := by
  unfold is_viral_comment chainNode
  simp

theorem chain_find (N : Nat) :
    ∀ (d k : Nat), k + d = N → 0 < d → ∀ f, d ≤ f → ∀ pre,
    find_viral_chains 3 10 (chainComments N 10) f (chainNode k 10) pre =
      (List.range (d - 1)).map (fun t => pre ++ chainSeg 10 k (d - t)) ++
        (if 1 ≤ pre.length then [pre ++ chainSeg 10 k 1] else []) := by
  intro d
  induction d with
  | zero => omega
  | succ d ihd =>
    intro k hk hd f hf pre
    obtain ⟨g, rfl⟩ := Nat.exists_eq_succ_of_ne_zero (by omega : f ≠ 0)
    simp only [find_viral_chains]
    rw [chain_children N 10 k]
    have hcond2 : (2 ≤ (pre ++ [chainNode k 10]).length) ↔ (1 ≤ pre.length) := by
      simp only [List.length_append, List.length_singleton]
      omega
    by_cases hlast : k + 1 < N
    · have hd1 : 0 < d := by omega
      rw [if_pos hlast]
      have hfilter : ([chainNode (k + 1) 10].filter
          (is_viral_comment 3 10 (chainComments N 10))) = [chainNode (k + 1) 10] := by
        simp [List.filter_cons, chain_viral N (k + 1)]
      rw [hfilter]
      simp only [List.isEmpty_cons, Bool.false_eq_true, if_neg, not_false_iff,
        List.map_cons, List.map_nil, List.flatten_cons, List.flatten_nil,
        List.append_nil]
      rw [ihd (k + 1) (by omega) hd1 g (by omega) (pre ++ [chainNode k 10])]
      rw [if_pos (by simp : 1 ≤ (pre ++ [chainNode k 10]).length)]
      have hseg : ∀ L : Nat, (pre ++ [chainNode k 10]) ++ chainSeg 10 (k + 1) L =
          pre ++ chainSeg 10 k (L + 1) := by
        intro L
        rw [chainSeg_cons, List.append_assoc]
        rfl
      have hmap : (List.range (d - 1)).map
          (fun t => (pre ++ [chainNode k 10]) ++ chainSeg 10 (k + 1) (d - t)) =
          (List.range (d - 1)).map (fun t => pre ++ chainSeg 10 k (d + 1 - t)) := by
        apply List.map_congr_left
        intro t ht
        rw [List.mem_range] at ht
        rw [hseg (d - t)]
        have h3 : d - t + 1 = d + 1 - t := by omega
        rw [h3]
      rw [hmap, hseg 1]
      have hrange : List.range (d + 1 - 1) = List.range (d - 1) ++ [d - 1] := by
        have h4 : d + 1 - 1 = (d - 1) + 1 := by omega
        rw [h4, List.range_succ]
      rw [hrange, List.map_append, List.map_cons, List.map_nil]
      have hlastelem : pre ++ chainSeg 10 k (d + 1 - (d - 1)) = pre ++ chainSeg 10 k 2 := by
        have h5 : d + 1 - (d - 1) = 2 := by omega
        rw [h5]
      rw [hlastelem]
      by_cases hp : 1 ≤ pre.length
      · rw [if_pos (hcond2.mpr hp), if_pos hp, chainSeg_one]
      · rw [if_neg (fun h => hp (hcond2.mp h)), if_neg hp]
    · have hd0 : d = 0 := by omega
      rw [if_neg hlast]
      simp only [List.filter_nil, List.isEmpty_nil, if_pos]
      subst hd0
      have h6 : (0 : Nat) + 1 - 1 = 0 := rfl
      rw [h6, List.range_zero, List.map_nil, List.nil_append, chainSeg_one]
      by_cases hp : 1 ≤ pre.length
      · rw [if_pos (hcond2.mpr hp), if_pos hp]
      · rw [if_neg (fun h => hp (hcond2.mp h)), if_neg hp]

theorem chain_all_viral (N : Nat) (hN : 1 ≤ N) :
    all_viral_chains 3 10 (chainComments N 10) =
      (List.range (N - 1)).map (fun t => chainSeg 10 0 (N - t)) := by
  unfold all_viral_chains
  rw [chain_roots N 10 hN]
  have hfilter : ([chainNode 0 10].filter
      (is_viral_comment 3 10 (chainComments N 10))) = [chainNode 0 10] := by
    simp [List.filter_cons, chain_viral N 0]
  rw [hfilter]
  simp only [List.map_cons, List.map_nil, List.flatten_cons, List.flatten_nil,
    List.append_nil]
  have hlen : (chainComments N 10).length = N := by
    unfold chainComments
    rw [List.length_map, List.length_range]
  rw [hlen, chain_find N N 0 (by omega) (by omega) N le_rfl []]
  have hif : (if 1 ≤ ([] : List CommentRec).length
      then [([] : List CommentRec) ++ chainSeg 10 0 1] else []) = [] := by
    simp
  rw [hif, List.append_nil]
  apply List.map_congr_left
  intro t _
  rw [List.nil_append]

theorem chain_longest (N : Nat) (hN : 2 ≤ N) :
    longestOf (all_viral_chains 3 10 (chainComments N 10)) = chainSeg 10 0 N := by
  rw [chain_all_viral N (by omega)]
  have hr : List.range (N - 1) = 0 :: (List.range (N - 2)).map Nat.succ := by
    have h1 : N - 1 = (N - 2) + 1 := by omega
    rw [h1, List.range_succ_eq_map]
  rw [hr, List.map_cons]
  unfold longestOf
  rw [List.foldl_cons]
  have hstep : (if ([] : List CommentRec).length < (chainSeg 10 0 (N - 0)).length
      then chainSeg 10 0 (N - 0) else ([] : List CommentRec)) = chainSeg 10 0 N := by
    rw [if_pos]
    · congr 1
    · rw [chainSeg_length, List.length_nil]
      omega
  rw [hstep]
  apply foldl_longest_const
  intro ch hch
  rcases List.mem_map.mp hch with ⟨t, _, htc⟩
  rw [← htc, chainSeg_length, chainSeg_length]
  omega

theorem chain_detect (pid : Int) (N : Nat) (hN : 2 ≤ N) :
    (detect_viral_chains_list 3 10 pid (chainComments N 10)).total_viral_chains = N - 1 ∧
    (detect_viral_chains_list 3 10 pid (chainComments N 10)).longest_chain_length = N ∧
    (detect_viral_chains_list 3 10 pid (chainComments N 10)).longest_chain_comments =
      (List.range N).map (fun i : Nat => (i : Int) + 1) ∧
    (detect_viral_chains_list 3 10 pid (chainComments N 10)).viral_criteria_met = true := by
  have hfields := detect_fields 3 10 pid (chainComments N 10)
  refine ⟨?_, ?_, ?_, ?_⟩
  · rw [hfields.1, chain_all_viral N (by omega), List.length_map, List.length_range]
  · rw [hfields.2.2.1, chain_longest N hN, chainSeg_length]
  · rw [hfields.2.1, chain_longest N hN]
    unfold chainSeg
    rw [List.map_map]
    apply List.map_congr_left
    intro t _
    simp [Function.comp, chainNode]
  · rw [hfields.2.2.2, chain_longest N hN, chainSeg_length]
    rw [decide_eq_true_eq]
    omega

theorem mem_all_viral_chains {vmr vmu : Int} {cs : List CommentRec}
    (hids : IdsNodup cs) (ch : List CommentRec) :
    ch ∈ all_viral_chains vmr vmu cs ↔
      ∃ r, r ∈ cs.filter (fun c => decide (c.parent_id = none)) ∧
        is_viral_comment vmr vmu cs r = true ∧ VPath vmr vmu cs r ch ∧
        2 ≤ ch.length := by
  unfold all_viral_chains
  constructor
  · intro hch
    rcases List.mem_flatten.mp hch with ⟨sub, hsub, hchsub⟩
    rcases List.mem_map.mp hsub with ⟨r, hr, hrsub⟩
    have hroot : r ∈ cs ∧ r.parent_id = none := by
      rcases List.mem_filter.mp (List.mem_of_mem_filter hr) with ⟨h1, h2⟩
      exact ⟨h1, by simpa [decide_eq_true_eq] using h2⟩
    have hchar := mem_find_viral_chains vmr vmu hids cs.length [] r
      (PathTo.start r hroot.1 hroot.2) (by simp) cs.length le_rfl [] ch
    rw [← hrsub] at hchsub
    rcases hchar.mp hchsub with ⟨l, hvp, hche, hlen2⟩
    rw [List.nil_append] at hche
    subst hche
    exact ⟨r, List.mem_of_mem_filter hr, (List.mem_filter.mp hr).2, hvp,
      by simpa using hlen2⟩
  · rintro ⟨r, hrroots, hvir, hvp, hlen2⟩
    have hroot : r ∈ cs ∧ r.parent_id = none := by
      rcases List.mem_filter.mp hrroots with ⟨h1, h2⟩
      exact ⟨h1, by simpa [decide_eq_true_eq] using h2⟩
    apply List.mem_flatten.mpr
    refine ⟨find_viral_chains vmr vmu cs cs.length r [], ?_, ?_⟩
    · exact List.mem_map.mpr ⟨r, List.mem_filter.mpr ⟨hrroots, hvir⟩, rfl⟩
    · exact (mem_find_viral_chains vmr vmu hids cs.length [] r
        (PathTo.start r hroot.1 hroot.2) (by simp) cs.length le_rfl [] ch).mpr
        ⟨ch, hvp, (List.nil_append ch).symm, by simpa using hlen2⟩

/-- Claim C6: with virality = direct-child count `≥ viral_min_replies` or
upvotes `≥ viral_min_upvotes`, the recorded chains are exactly the paths
of viral comments of length `≥ 2` that start at a viral null-parent root
(so every prefix of a descent is a separate chain and non-viral roots
contribute nothing); `total_viral_chains` counts them all;
`viral_criteria_met` holds iff at least one such chain exists;
`longest_chain_comments` lists the ids, root to leaf, of the first
maximum-length chain in traversal order; a lone viral comment with no
viral children yields no chain; and a single viral branch of depth `N ≥ 2`
yields `N - 1` chains with the longest being the whole branch. -/
theorem claim_C6_viral_backtracking (vmr vmu : Int) (pid : Int)
    (cs : List CommentRec) (hids : IdsNodup cs) :
    (∀ ch, ch ∈ all_viral_chains vmr vmu cs ↔
      ∃ r, r ∈ cs.filter (fun c => decide (c.parent_id = none)) ∧
        is_viral_comment vmr vmu cs r = true ∧ VPath vmr vmu cs r ch ∧
        2 ≤ ch.length) ∧
    (detect_viral_chains_list vmr vmu pid cs).total_viral_chains =
      (all_viral_chains vmr vmu cs).length ∧
    ((detect_viral_chains_list vmr vmu pid cs).viral_criteria_met = true ↔
      all_viral_chains vmr vmu cs ≠ []) ∧
    ((all_viral_chains vmr vmu cs = [] ∧
      (detect_viral_chains_list vmr vmu pid cs).longest_chain_comments = [] ∧
      (detect_viral_chains_list vmr vmu pid cs).longest_chain_length = 0) ∨
      (∃ l₁ best l₂, all_viral_chains vmr vmu cs = l₁ ++ best :: l₂ ∧
        (detect_viral_chains_list vmr vmu pid cs).longest_chain_comments =
          best.map (fun c => c.id) ∧
        (detect_viral_chains_list vmr vmu pid cs).longest_chain_length = best.length ∧
        (∀ ch ∈ l₁, ch.length < best.length) ∧
        (∀ ch ∈ all_viral_chains vmr vmu cs, ch.length ≤ best.length))) ∧
    (∀ r, is_viral_comment vmr vmu cs r = true →
      ((children_of cs r).filter (is_viral_comment vmr vmu cs)).isEmpty →
      ∀ f, f ≠ 0 → find_viral_chains vmr vmu cs f r [] = []) ∧
    (∀ N : Nat, 2 ≤ N →
      (detect_viral_chains_list 3 10 pid (chainComments N 10)).total_viral_chains =
        N - 1 ∧
      (detect_viral_chains_list 3 10 pid (chainComments N 10)).longest_chain_length =
        N ∧
      (detect_viral_chains_list 3 10 pid (chainComments N 10)).longest_chain_comments =
        (List.range N).map (fun i : Nat => (i : Int) + 1) ∧
      (detect_viral_chains_list 3 10 pid (chainComments N 10)).viral_criteria_met =
        true) := by
  have hfields := detect_fields vmr vmu pid cs
  refine ⟨fun ch => mem_all_viral_chains hids ch, hfields.1, ?_, ?_, ?_, ?_⟩
  · rw [hfields.2.2.2]
    constructor
    · intro h hnil
      rw [hnil] at h
      simp [longestOf] at h
    · intro hne
      rcases foldl_longest_spec (all_viral_chains vmr vmu cs) [] with
        ⟨_, hall⟩ | ⟨l₁, l₂, _, hlt, _, _⟩
      · exfalso
        obtain ⟨ch, hch⟩ := List.exists_mem_of_ne_nil _ hne
        obtain ⟨r, _, _, _, h2⟩ := (mem_all_viral_chains hids ch).mp hch
        have h3 := hall ch hch
        simp only [List.length_nil] at h3
        omega
      · rw [decide_eq_true_eq]
        unfold longestOf
        simpa using hlt
  · rcases foldl_longest_spec (all_viral_chains vmr vmu cs) [] with
      ⟨heq, hall⟩ | ⟨l₁, l₂, hsplit, _, hl₁, hl₂⟩
    · left
      have hnil : all_viral_chains vmr vmu cs = [] := by
        by_contra hne
        obtain ⟨ch, hch⟩ := List.exists_mem_of_ne_nil _ hne
        obtain ⟨r, _, _, _, h2⟩ := (mem_all_viral_chains hids ch).mp hch
        have h3 := hall ch hch
        simp only [List.length_nil] at h3
        omega
      refine ⟨hnil, ?_, ?_⟩
      · rw [hfields.2.1]
        unfold longestOf
        rw [hnil]
        rfl
      · rw [hfields.2.2.1]
        unfold longestOf
        rw [hnil]
        rfl
    · right
      refine ⟨l₁, longestOf (all_viral_chains vmr vmu cs), l₂, ?_, hfields.2.1,
        hfields.2.2.1, ?_, ?_⟩
      · exact hsplit
      · intro ch hch
        exact hl₁ ch hch
      · intro ch hch
        rw [hsplit] at hch
        rcases List.mem_append.mp hch with hch | hch
        · exact le_of_lt (hl₁ ch hch)
        · rcases List.mem_cons.mp hch with hch | hch
          · unfold longestOf
            rw [hch]
          · exact hl₂ ch hch
  · intro r _ hempty f hf0
    obtain ⟨g, rfl⟩ := Nat.exists_eq_succ_of_ne_zero hf0
    simp only [find_viral_chains, hempty, if_pos]
    have h1 : ¬ (2 ≤ (([] : List CommentRec) ++ [r]).length) := by
      simp
    rw [if_neg h1]
  · intro N hN
    exact chain_detect pid N hN

/-- Claim C6 witness: the backtracking theorem applied to the concrete
viral branch of depth 3 (every comment has 10 upvotes): 2 chains, longest
ids `[1, 2, 3]`. -/
theorem claim_C6_viral_backtracking_witness :
    IdsNodup (chainComments 3 10) ∧
    (detect_viral_chains_list 3 10 7 (chainComments 3 10)).total_viral_chains = 3 - 1 ∧
    (detect_viral_chains_list 3 10 7 (chainComments 3 10)).longest_chain_comments =
      (List.range 3).map (fun i : Nat => (i : Int) + 1) :=
  ⟨by unfold IdsNodup; decide,
    ((claim_C6_viral_backtracking 3 10 7 (chainComments 3 10)
      (by unfold IdsNodup; decide)).2.2.2.2.2 3 (by decide)).1,
    ((claim_C6_viral_backtracking 3 10 7 (chainComments 3 10)
      (by unfold IdsNodup; decide)).2.2.2.2.2 3 (by decide)).2.2.1⟩

end CommentAnalyzer

/-! ## Recommendation engine (`RecommendationEngine` in
`app/services/trending.py`)

The relational tables the SQL reads are modelled as lists: `hashtags` as
`(id, name)` rows and `post_hashtags` as `(post_id, hashtag_id)` rows.
The co-occurrence query counts, for every other hashtag, the distinct
posts carrying both it and the target, and returns the rows ordered by
that count descending; the Python loop keeps the rows whose rate `C / T`
reaches the threshold and truncates.  Rates are modelled as exact
rationals. -/

/-- The two relational tables the recommendation engine queries. -/
structure RecDb where
  hashtags : List (Int × String)
  post_hashtags : List (Int × Int)

namespace RecommendationEngine

/-- Translation of `db.query(Hashtag).filter(Hashtag.name == hashtag).first()`. -/
def target_hashtag (db : RecDb) (name : String) : Option (Int × String) :=
  db.hashtags.find? (fun h => decide (h.2 = name))

/-- Translation of the `COUNT(post_id)` of the target's `post_hashtags`
rows. -/
def total_target_posts (db : RecDb) (tid : Int) : Nat :=
  (db.post_hashtags.filter (fun ph => decide (ph.2 = tid))).length

/-- Translation of `COUNT(DISTINCT ph1.post_id)` for one co-occurring
hashtag: the number of distinct posts that carry the target and also carry
hashtag `hid`. -/
def cooccurrence_count (db : RecDb) (tid hid : Int) : Nat :=
  ((((db.post_hashtags.filter (fun ph => decide (ph.2 = tid))).map
    (fun ph => ph.1)).filter
    (fun p => decide ((p, hid) ∈ db.post_hashtags))).dedup).length

/-- Translation of the co-occurrence query result: one row `(name, count)`
per hashtag other than the target that shares at least one post with it
(the inner join yields no row for a count of zero), ordered by count
descending. -/
def cooccurrence_rows (db : RecDb) (tid : Int) : List (String × Nat) :=
  sortLe (fun a b => decide (b.2 ≤ a.2))
    (((db.hashtags.filter (fun h => decide (¬ h.1 = tid))).map
      (fun h => (h.2, cooccurrence_count db tid h.1))).filter
      (fun r => decide (0 < r.2)))

/-- Translation of `RecommendationEngine._compute_recommendations`:
empty result when the target hashtag is unknown or appears on no post,
otherwise the rows whose rate `count / T` reaches `min_cooccurrence_rate`,
as `(name, rate)` pairs, truncated to `max_recommendations`. -/
def compute_recommendations (min_rate : Rat) (db : RecDb) (hashtag : String)
    (max_recommendations : Nat) : List (String × Rat) :=
  match target_hashtag db hashtag with
  | none => []
  | some t =>
    if total_target_posts db t.1 = 0 then []
    else
      (((cooccurrence_rows db t.1).filter
        (fun r => decide (min_rate ≤
          (r.2 : Rat) / ((total_target_posts db t.1 : Nat) : Rat)))).map
        (fun r => (r.1,
          (r.2 : Rat) / ((total_target_posts db t.1 : Nat) : Rat)))).take
        max_recommendations

theorem cooccurrence_le_total (db : RecDb) (tid hid : Int) :
    cooccurrence_count db tid hid ≤ total_target_posts db tid := by
  unfold cooccurrence_count total_target_posts
  calc ((((db.post_hashtags.filter (fun ph => decide (ph.2 = tid))).map
        (fun ph => ph.1)).filter
        (fun p => decide ((p, hid) ∈ db.post_hashtags))).dedup).length
      ≤ (((db.post_hashtags.filter (fun ph => decide (ph.2 = tid))).map
        (fun ph => ph.1)).filter
        (fun p => decide ((p, hid) ∈ db.post_hashtags))).length :=
        (List.dedup_sublist _).length_le
    _ ≤ ((db.post_hashtags.filter (fun ph => decide (ph.2 = tid))).map
        (fun ph => ph.1)).length := (List.filter_sublist _).length_le
    _ = (db.post_hashtags.filter (fun ph => decide (ph.2 = tid))).length :=
        List.length_map _ _

/-- Claim C7: for a known target hashtag `t`, every returned pair
`(name, rate)` carries the exact rate `C / T` where `C` is the
co-occurrence count of a hashtag row of the database bearing that very
name (other than the target, with `C > 0`) and `T` the target's post
count; each rate lies in `[0, 1]` and reaches the threshold; the output is
ordered by co-occurrence count descending (stated both as rates
non-increasing and as the underlying counts non-increasing, `T` being
fixed); at most `max_recommendations` entries are returned; and an unknown
target hashtag, or one appearing on no post, yields the empty list rather
than an error. -/
theorem claim_C7_recommendations (min_rate : Rat) (db : RecDb) (name : String)
    (maxr : Nat) :
    (∀ p ∈ compute_recommendations min_rate db name maxr,
      (0 : Rat) ≤ p.2 ∧ p.2 ≤ 1 ∧ min_rate ≤ p.2) ∧
    (∀ t, target_hashtag db name = some t →
      ∀ p ∈ compute_recommendations min_rate db name maxr,
        ∃ h, h ∈ db.hashtags ∧ h.1 ≠ t.1 ∧ h.2 = p.1 ∧
          0 < cooccurrence_count db t.1 h.1 ∧
          p.2 = ((cooccurrence_count db t.1 h.1 : Nat) : Rat) /
            ((total_target_posts db t.1 : Nat) : Rat)) ∧
    (compute_recommendations min_rate db name maxr).Pairwise
      (fun a b => b.2 ≤ a.2) ∧
    (∀ t, target_hashtag db name = some t →
      (compute_recommendations min_rate db name maxr).Pairwise
        (fun a b => ∀ Ca Cb : Nat,
          a.2 = ((Ca : Nat) : Rat) / ((total_target_posts db t.1 : Nat) : Rat) →
          b.2 = ((Cb : Nat) : Rat) / ((total_target_posts db t.1 : Nat) : Rat) →
          Cb ≤ Ca)) ∧
    (compute_recommendations min_rate db name maxr).length ≤ maxr ∧
    (target_hashtag db name = none →
      compute_recommendations min_rate db name maxr = []) ∧
    (∀ t, target_hashtag db name = some t → total_target_posts db t.1 = 0 →
      compute_recommendations min_rate db name maxr = []) := by
  have hpair : (compute_recommendations min_rate db name maxr).Pairwise
      (fun a b => b.2 ≤ a.2) := by
    unfold compute_recommendations
    cases hfind : target_hashtag db name with
    | none => simp
    | some t =>
      simp only
      by_cases hT : total_target_posts db t.1 = 0
      · rw [if_pos hT]
        exact List.Pairwise.nil
      · rw [if_neg hT]
        have htrans : ∀ a b c : String × Nat,
            (decide (b.2 ≤ a.2)) = true → (decide (c.2 ≤ b.2)) = true →
            (decide (c.2 ≤ a.2)) = true := by
          intro a b c hab hbc
          rw [decide_eq_true_eq] at *
          omega
        have htot : ∀ a b : String × Nat,
            (decide (b.2 ≤ a.2)) = true ∨ (decide (a.2 ≤ b.2)) = true := by
          intro a b
          rcases Nat.le_total a.2 b.2 with h | h
          · right
            rw [decide_eq_true_eq]
            exact h
          · left
            rw [decide_eq_true_eq]
            exact h
        have hsort := pairwise_sortLe htrans htot
          (((db.hashtags.filter (fun h => decide (¬ h.1 = t.1))).map
            (fun h => (h.2, cooccurrence_count db t.1 h.1))).filter
            (fun r => decide (0 < r.2)))
        have hrows : (cooccurrence_rows db t.1).Pairwise
            (fun a b => b.2 ≤ a.2) := by
          unfold cooccurrence_rows
          refine hsort.imp ?_
          intro a b hab
          rw [decide_eq_true_eq] at hab
          exact hab
        have hfiltered : (((cooccurrence_rows db t.1).filter
            (fun r => decide (min_rate ≤
              (r.2 : Rat) / ((total_target_posts db t.1 : Nat) : Rat))))).Pairwise
            (fun a b => b.2 ≤ a.2) :=
          hrows.sublist (List.filter_sublist _)
        have hmapped : ((((cooccurrence_rows db t.1).filter
            (fun r => decide (min_rate ≤
              (r.2 : Rat) / ((total_target_posts db t.1 : Nat) : Rat)))).map
            (fun r => (r.1,
              (r.2 : Rat) / ((total_target_posts db t.1 : Nat) : Rat))))).Pairwise
            (fun a b => b.2 ≤ a.2) := by
          refine List.Pairwise.map _ ?_ hfiltered
          intro a b hab
          have hTpos : (0 : Rat) < ((total_target_posts db t.1 : Nat) : Rat) := by
            have := Nat.pos_of_ne_zero hT
            exact_mod_cast this
          have hcast : ((b.2 : Nat) : Rat) ≤ ((a.2 : Nat) : Rat) := by
            exact_mod_cast hab
          exact (div_le_div_iff_of_pos_right hTpos).mpr hcast
        exact hmapped.sublist (List.take_sublist _ _)
  refine ⟨?_, ?_, hpair, ?_, ?_, ?_, ?_⟩
  · intro p hp
    unfold compute_recommendations at hp
    cases hfind : target_hashtag db name with
    | none =>
      rw [hfind] at hp
      simp at hp
    | some t =>
      rw [hfind] at hp
      simp only at hp
      by_cases hT : total_target_posts db t.1 = 0
      · rw [if_pos hT] at hp
        cases hp
      · rw [if_neg hT] at hp
        have hp1 := List.take_subset _ _ hp
        rcases List.mem_map.mp hp1 with ⟨r, hr, hrp⟩
        rcases List.mem_filter.mp hr with ⟨hr1, hr2⟩
        have hr3 := mem_sortLe.mp hr1
        rcases List.mem_filter.mp hr3 with ⟨hr4, _⟩
        rcases List.mem_map.mp hr4 with ⟨h, _, hhr⟩
        have hTpos : (0 : Rat) < ((total_target_posts db t.1 : Nat) : Rat) := by
          have := Nat.pos_of_ne_zero hT
          exact_mod_cast this
        subst hrp
        refine ⟨?_, ?_, ?_⟩
        · exact div_nonneg (Nat.cast_nonneg _) (Nat.cast_nonneg _)
        · have hle : r.2 ≤ total_target_posts db t.1 := by
            rw [← hhr]
            exact cooccurrence_le_total db t.1 h.1
          rw [div_le_one hTpos]
          exact_mod_cast hle
        · simpa [decide_eq_true_eq] using hr2
  · intro t hsome p hp
    unfold compute_recommendations at hp
    rw [hsome] at hp
    simp only at hp
    by_cases hT : total_target_posts db t.1 = 0
    · rw [if_pos hT] at hp
      cases hp
    · rw [if_neg hT] at hp
      have hp1 := List.take_subset _ _ hp
      rcases List.mem_map.mp hp1 with ⟨r, hr, hrp⟩
      rcases List.mem_filter.mp hr with ⟨hr1, _⟩
      have hr3 := mem_sortLe.mp hr1
      rcases List.mem_filter.mp hr3 with ⟨hr4, hr5⟩
      have hpos : 0 < r.2 := by
        simpa [decide_eq_true_eq] using hr5
      rcases List.mem_map.mp hr4 with ⟨h, hh, hhr⟩
      rcases List.mem_filter.mp hh with ⟨hhmem, hhne⟩
      have hne : h.1 ≠ t.1 := by
        simpa [decide_eq_true_eq] using hhne
      have hname : h.2 = r.1 := congrArg Prod.fst hhr
      have hcount : cooccurrence_count db t.1 h.1 = r.2 := congrArg Prod.snd hhr
      subst hrp
      exact ⟨h, hhmem, hne, hname, by rw [hcount]; exact hpos, by rw [hcount]⟩
  · intro t hsome
    by_cases hT : total_target_posts db t.1 = 0
    · have hempty : compute_recommendations min_rate db name maxr = [] := by
        unfold compute_recommendations
        rw [hsome]
        simp only
        rw [if_pos hT]
      rw [hempty]
      exact List.Pairwise.nil
    · refine hpair.imp ?_
      intro a b hab
      intro Ca Cb hCa hCb
      have hTpos : (0 : Rat) < ((total_target_posts db t.1 : Nat) : Rat) := by
        have := Nat.pos_of_ne_zero hT
        exact_mod_cast this
      rw [hCa, hCb] at hab
      have := (div_le_div_iff_of_pos_right hTpos).mp hab
      exact_mod_cast this
  · unfold compute_recommendations
    cases hfind : target_hashtag db name with
    | none => simp
    | some t =>
      simp only
      by_cases hT : total_target_posts db t.1 = 0
      · rw [if_pos hT]
        simp
      · rw [if_neg hT]
        exact List.length_take_le _ _
  · intro hnone
    unfold compute_recommendations
    rw [hnone]
  · intro t hsome hT
    unfold compute_recommendations
    rw [hsome]
    simp only
    rw [if_pos hT]

/-- Claim C7 witness: the contract applied at a concrete database; a
hashtag absent from the store yields the empty list, the target "a"
(posts 10 and 11) gets "b" recommended with its exact co-occurrence rate,
and results are truncated to the requested maximum. -/
theorem claim_C7_recommendations_witness :
    target_hashtag (RecDb.mk [(1, "a"), (2, "b")] [(10, 1), (10, 2), (11, 1)])
      "zzz" = none ∧
    compute_recommendations (3 / 10)
      (RecDb.mk [(1, "a"), (2, "b")] [(10, 1), (10, 2), (11, 1)]) "zzz" 3 = [] ∧
    (compute_recommendations (3 / 10)
      (RecDb.mk [(1, "a"), (2, "b")] [(10, 1), (10, 2), (11, 1)]) "a" 3).length ≤ 3 ∧
    (∀ p ∈ compute_recommendations (3 / 10)
        (RecDb.mk [(1, "a"), (2, "b")] [(10, 1), (10, 2), (11, 1)]) "a" 3,
      ∃ h, h ∈ (RecDb.mk [(1, "a"), (2, "b")] [(10, 1), (10, 2), (11, 1)]).hashtags ∧
        h.1 ≠ (1, "a").1 ∧ h.2 = p.1 ∧
        0 < cooccurrence_count
          (RecDb.mk [(1, "a"), (2, "b")] [(10, 1), (10, 2), (11, 1)]) (1, "a").1 h.1 ∧
        p.2 = ((cooccurrence_count
            (RecDb.mk [(1, "a"), (2, "b")] [(10, 1), (10, 2), (11, 1)])
            (1, "a").1 h.1 : Nat) : Rat) /
          ((total_target_posts
            (RecDb.mk [(1, "a"), (2, "b")] [(10, 1), (10, 2), (11, 1)])
            (1, "a").1 : Nat) : Rat)) :=
  ⟨by decide,
    (claim_C7_recommendations (3 / 10)
      (RecDb.mk [(1, "a"), (2, "b")] [(10, 1), (10, 2), (11, 1)]) "zzz" 3).2.2.2.2.2.1
      (by decide),
    (claim_C7_recommendations (3 / 10)
      (RecDb.mk [(1, "a"), (2, "b")] [(10, 1), (10, 2), (11, 1)]) "a" 3).2.2.2.2.1,
    (claim_C7_recommendations (3 / 10)
      (RecDb.mk [(1, "a"), (2, "b")] [(10, 1), (10, 2), (11, 1)]) "a" 3).2.1
      (1, "a") (by decide)⟩

end RecommendationEngine
